import Mathlib

/-!
Verification development for the section-boundary detection and extraction
engine of the pdf-analysis repository (`extract_sections.py`).

Documents are modelled as `List Char` (Python string indices are character
offsets).  The Python `re` patterns used by the source are embedded via a
small prioritized-backtracking matcher (`Rgx`) whose alternative order,
greediness and anchoring reproduce Python semantics for the pattern
combinators actually used by the source (character-class repetition,
alternation, optional groups, multiline `^`/`$`, IGNORECASE literals).
-/

set_option maxRecDepth 400000
set_option maxHeartbeats 4000000

abbrev Str := List Char

/-- Python whitespace (`str.strip` default set / regex `\s` over ASCII). -/
def pyWs (c : Char) : Bool :=
  c = ' ' || c = '\t' || c = '\n' || c = '\r' || c = '\x0b' || c = '\x0c'

/-- `.` in a Python regex without DOTALL: any character except newline. -/
def notNL (c : Char) : Bool := !(c = '\n')

def isDigit09 (c : Char) : Bool := '0' ≤ c && c ≤ '9'

def isUpperAZ (c : Char) : Bool := 'A' ≤ c && c ≤ 'Z'

def isLowerAZ (c : Char) : Bool := 'a' ≤ c && c ≤ 'z'

/-- `[A-Z]` under `re.IGNORECASE`. -/
def isAlphaCI (c : Char) : Bool := isUpperAZ c || isLowerAZ c

/-- Python `str.lower` on the ASCII texts handled here. -/
def lowerStr (s : Str) : Str := s.map Char.toLower

/-- Case-insensitive character comparison (IGNORECASE literals). -/
def ciEq (a b : Char) : Bool := a.toLower = b.toLower

/-- Python `str.lstrip()`. -/
def trimLeftWs (s : Str) : Str := s.dropWhile pyWs

/-- Python `str.rstrip()`. -/
def trimRightWs (s : Str) : Str := (s.reverse.dropWhile pyWs).reverse

/-- Python `str.strip()`. -/
def stripWs (s : Str) : Str := trimRightWs (trimLeftWs s)

/-- Python `text.split(chr(10))`: split at every newline, keeping empties. -/
def splitNL : Str → List Str
  | [] => [[]]
  | c :: r =>
    if c = '\n' then [] :: splitNL r
    else (c :: (splitNL r).headD []) :: (splitNL r).tail

/-- Python `sep.join` for the newline separator. -/
def joinNL : List Str → Str
  | [] => []
  | [l] => l
  | l :: ls => l ++ '\n' :: joinNL ls

/-- Python substring test `needle in hay`. -/
def containsSub (n : Str) : Str → Bool
  | [] => n.isEmpty
  | c :: rest => n.isPrefixOf (c :: rest) || containsSub n rest

/-- Number of positions of `hay` at which `needle` starts (spec-side
occurrence count, used to compare against the code's per-phrase test). -/
def occCount (n hay : Str) : Nat :=
  (List.range (hay.length + 1)).countP (fun i => n.isPrefixOf (hay.drop i))

/-- Index of the first occurrence of `sep` in `s`, if any. -/
def findOcc (sep : Str) : Str → Option Nat
  | [] => if sep.isPrefixOf [] then some 0 else none
  | c :: r =>
    if sep.isPrefixOf (c :: r) then some 0
    else (findOcc sep r).map (· + 1)

/-- Python `s.split(sep)` for a non-empty separator (fuelled). -/
def splitOnSepFuel (sep : Str) : Nat → Str → List Str
  | 0, s => [s]
  | f + 1, s =>
    match findOcc sep s with
    | none => [s]
    | some i => s.take i :: splitOnSepFuel sep f (s.drop (i + sep.length))

def splitOnSep (sep s : Str) : List Str := splitOnSepFuel sep s.length s

/-- Python `sep.join`. -/
def joinSep (sep : Str) : List Str → Str
  | [] => []
  | [l] => l
  | l :: ls => l ++ sep ++ joinSep sep ls

/-- Number of whitespace-separated words, as in Python `len(s.split())`. -/
def wordCount : Str → Nat :=
  fun s => countWords s false
where
  countWords : Str → Bool → Nat
    | [], _ => 0
    | c :: r, inWord =>
      if pyWs c then countWords r false
      else (if inWord then 0 else 1) + countWords r true

/-- Python slice `s[a:b]` for natural indices. -/
def sliceRange (s : Str) (a b : Nat) : Str := (s.take b).drop a

/-!  ## The regex matcher

`rgxEnds r s` returns the list of possible remaining suffixes after matching
`r` at the head of `s`, ordered by Python backtracking priority (greedy
repetition longest-first, alternatives left-first, optional present-first).
The head of the final list is the match Python's engine selects.  `^` is
handled by the scanner (matches are only attempted at line starts), `eol`
is multiline `$`.  -/

inductive Rgx where
  | eps
  | pred (p : Char → Bool)
  | lit (s : Str)
  | litCI (s : Str)
  | cat (a b : Rgx)
  | alt (a b : Rgx)
  | opt (r : Rgx)
  | rep (lo : Nat) (hi : Option Nat) (p : Char → Bool)
  | eol
deriving Inhabited

/-- `true` when the pattern contains no `$` anchor. -/
def Rgx.noEol : Rgx → Bool
  | .eps => true
  | .pred _ => true
  | .lit _ => true
  | .litCI _ => true
  | .cat a b => a.noEol && b.noEol
  | .alt a b => a.noEol && b.noEol
  | .opt r => r.noEol
  | .rep _ _ _ => true
  | .eol => false

/-- Consume a literal using character comparison `cmp`. -/
def dropLit (cmp : Char → Char → Bool) : Str → Str → Option Str
  | [], s => some s
  | _ :: _, [] => none
  | t :: ts, c :: s => if cmp t c then dropLit cmp ts s else none

/-- Length of the maximal run of `p`-characters at the head of `s`. -/
def maxRun (p : Char → Bool) (s : Str) : Nat := (s.takeWhile p).length

/-- `[hi, hi-1, ..., lo]`, empty when `hi < lo`. -/
def rangeDown : Nat → Nat → List Nat
  | 0, lo => if lo = 0 then [0] else []
  | m + 1, lo => if m + 1 < lo then [] else (m + 1) :: rangeDown m lo

/-- Match ends of a greedy counted repetition of a character class. -/
def repEnds (lo : Nat) (hi : Option Nat) (p : Char → Bool) (s : Str) : List Str :=
  let m := match hi with
    | none => maxRun p s
    | some h => min (maxRun p s) h
  (rangeDown m lo).map (fun n => s.drop n)

def rgxEnds : Rgx → Str → List Str
  | .eps, s => [s]
  | .pred p, [] => (fun _ => []) p
  | .pred p, c :: r => if p c then [r] else []
  | .lit t, s => (dropLit (fun a b => a = b) t s).toList
  | .litCI t, s => (dropLit ciEq t s).toList
  | .cat a b, s => (rgxEnds a s).flatMap (rgxEnds b)
  | .alt a b, s => rgxEnds a s ++ rgxEnds b s
  | .opt r, s => rgxEnds r s ++ [s]
  | .rep lo hi p, s => repEnds lo hi p s
  | .eol, [] => [[]]
  | .eol, c :: r => if c = '\n' then [c :: r] else []

/-- `re.match(r, s)` truthiness: a match anchored at position 0. -/
def matchesAt0 (r : Rgx) (s : Str) : Bool := !(rgxEnds r s).isEmpty

/-- One reported match of a scan: start offset and group-0 text. -/
structure RgxMatch where
  start : Nat
  matched : Str
deriving Repr, DecidableEq

/-- `re.finditer` for a multiline `^`-anchored pattern: leftmost,
non-overlapping, resuming at each match end (our patterns never match the
empty string, but the empty case advances by one as Python does). -/
def scanLinesAux (r : Rgx) : Nat → Str → Nat → Bool → List RgxMatch
  | 0, _, _, _ => []
  | _ + 1, [], _, _ => []
  | fuel + 1, c :: rest, pos, atLS =>
    if atLS then
      match (rgxEnds r (c :: rest)).head? with
      | some rem =>
        let mlen := (c :: rest).length - rem.length
        if mlen = 0 then
          scanLinesAux r fuel rest (pos + 1) (c = '\n')
        else
          let consumed := (c :: rest).take mlen
          ⟨pos, consumed⟩ ::
            scanLinesAux r fuel rem (pos + mlen) (consumed.getLast? = some '\n')
      | none => scanLinesAux r fuel rest (pos + 1) (c = '\n')
    else scanLinesAux r fuel rest (pos + 1) (c = '\n')

def scanLines (r : Rgx) (s : Str) : List RgxMatch :=
  scanLinesAux r (s.length + 1) s 0 true

/-- `pattern.search` for a multiline `^`-anchored pattern. -/
def searchLines (r : Rgx) (s : Str) : Option RgxMatch := (scanLines r s).head?

/-- Unanchored `re.search` truthiness (used for the generic-boundary
citation filters). -/
def searchAnywhereAux (r : Rgx) : Nat → Str → Bool
  | 0, _ => false
  | _ + 1, [] => !(rgxEnds r []).isEmpty
  | fuel + 1, c :: rest =>
    !(rgxEnds r (c :: rest)).isEmpty || searchAnywhereAux r fuel rest

def searchAnywhere (r : Rgx) (s : Str) : Bool :=
  searchAnywhereAux r (s.length + 1) s

/-! ## The concrete patterns of `extract_sections.py` -/

def chrP (c : Char) : Rgx := .pred (fun d => d = c)

def chrCI (c : Char) : Rgx := .pred (fun d => ciEq c d)

def lc (s : String) : Rgx := .litCI s.data

def cats (rs : List Rgx) : Rgx := rs.foldr .cat .eps

def alts : List Rgx → Rgx
  | [] => .eps
  | [r] => r
  | r :: rs => .alt r (alts rs)

def wsStar : Rgx := .rep 0 none pyWs

def wsPlus : Rgx := .rep 1 none pyWs

def dotStar : Rgx := .rep 0 none notNL

def digPlus : Rgx := .rep 1 none isDigit09

def hashPlus : Rgx := .rep 1 none (fun c => c = '#')

def star02 : Rgx := .rep 0 (some 2) (fun c => c = '*')

/-- `s?` (case-insensitive optional plural). -/
def sOpt : Rgx := .opt (chrCI 's')

def dashChar (c : Char) : Bool := c = '-' || c = '–'

/-- `(?:(?:\d+\.?|[IVX]+\.?)\s*)?` under IGNORECASE. -/
def numRoman : Rgx :=
  .alt (cats [digPlus, .opt (chrP '.')])
    (cats [.rep 1 none (fun c => c = 'I' || c = 'V' || c = 'X' || c = 'i' || c = 'v' || c = 'x'),
           .opt (chrP '.')])

/-- `^(?:#+\s*)?(?:\*{0,2})(?:(?:\d+\.?|[IVX]+\.?)\s*)?` -/
def hdrPre : Rgx :=
  cats [.opt (cats [hashPlus, wsStar]), star02, .opt (cats [numRoman, wsStar])]

/-- `(?:\*{0,2})\s*$` -/
def hdrSuf : Rgx := cats [star02, wsStar, .eol]

def mkTarget (body : Rgx) : Rgx := cats [hdrPre, body, hdrSuf]

/-- End-of-paper headers: `^(?:#+\s*)?(?:\*{0,2})BODY(?:\*{0,2})\s*$`. -/
def mkEnd (body : Rgx) : Rgx :=
  cats [.opt (cats [hashPlus, wsStar]), star02, body, star02, wsStar, .eol]

def introBody : Rgx :=
  alts [lc "introduction",
        cats [lc "background", .opt (cats [wsPlus, lc "and", wsPlus, lc "motivation"])],
        lc "overview", lc "preface", lc "motivation"]

def conclBody : Rgx :=
  alts [cats [lc "conclusion", sOpt],
        cats [lc "concluding", wsPlus, lc "remark", sOpt],
        cats [lc "summary", .opt (cats [wsPlus, lc "and", wsPlus, lc "conclusion", sOpt])],
        cats [lc "final", wsPlus, lc "remark", sOpt],
        cats [lc "closing", wsPlus, lc "remark", sOpt],
        cats [lc "general", wsPlus, lc "conclusion", sOpt],
        cats [lc "conclusion", sOpt, wsPlus, lc "and", wsPlus,
              alts [lc "outlook",
                    cats [lc "future", wsPlus, alts [lc "work", cats [lc "direction", sOpt]]]]],
        cats [lc "summary", wsPlus, lc "and", wsPlus,
              alts [lc "outlook", cats [lc "perspective", sOpt]]]]

def futureBody : Rgx :=
  alts [cats [lc "future", wsPlus,
              alts [cats [lc "work", sOpt], lc "outlook", cats [lc "direction", sOpt],
                    lc "research", cats [lc "perspective", sOpt], lc "studies"]],
        cats [lc "outlook",
              .opt (cats [wsPlus, lc "and", wsPlus,
                    alts [cats [lc "perspective", sOpt],
                          cats [lc "future", wsPlus, alts [lc "work", cats [lc "direction", sOpt]]]]])],
        cats [lc "perspective", sOpt,
              .opt (cats [wsPlus, lc "and", wsPlus,
                    alts [lc "outlook",
                          cats [lc "future", wsPlus, alts [lc "work", cats [lc "direction", sOpt]]]]])],
        cats [.opt (cats [lc "open", wsPlus]), alts [lc "questions", lc "challenges"],
              .opt (cats [wsPlus, lc "and", wsPlus,
                    alts [lc "outlook", cats [lc "future", wsPlus, lc "direction", sOpt]]])],
        cats [lc "implications",
              .opt (cats [wsPlus, lc "and", wsPlus, lc "future", wsPlus,
                    alts [lc "work", cats [lc "direction", sOpt]]])],
        cats [lc "road", wsStar, lc "map"],
        cats [lc "what", .opt (.pred (fun c => c.toNat = 39)), lc "s", wsPlus, lc "next"],
        cats [lc "looking", wsPlus, alts [lc "ahead", lc "forward"]]]

def resultsBody : Rgx :=
  alts [cats [lc "result", sOpt], lc "findings", cats [lc "experimental", wsPlus, lc "result", sOpt]]

def discussionBody : Rgx :=
  alts [lc "discussion", lc "analysis",
        cats [lc "result", sOpt, wsPlus, lc "and", wsPlus, lc "discussion"]]

inductive SectionKind where
  | introduction | conclusion | future_outlook | results | discussion
deriving DecidableEq, Repr, Inhabited

/-- `target_headers` of `extract_sections_from_markdown`. -/
def targetRgx : SectionKind → Rgx
  | .introduction => mkTarget introBody
  | .conclusion => mkTarget conclBody
  | .future_outlook => mkTarget futureBody
  | .results => mkTarget resultsBody
  | .discussion => mkTarget discussionBody

/-- `end_section_patterns` (References, Bibliography, ...), in source order. -/
def endSectionRgxs : List Rgx :=
  [mkEnd (cats [lc "reference", sOpt]),
   mkEnd (lc "bibliography"),
   mkEnd (cats [lc "acknowledg", .opt (lc "e"), lc "ment", sOpt]),
   mkEnd (cats [lc "author", wsPlus, lc "contribution", sOpt]),
   mkEnd (cats [lc "declaration", wsPlus, lc "of", wsPlus,
                .opt (cats [lc "competing", wsPlus]), lc "interest", sOpt]),
   mkEnd (cats [lc "conflict", sOpt, wsPlus, lc "of", wsPlus, lc "interest"]),
   mkEnd (lc "funding"),
   mkEnd (cats [lc "supplementary", wsPlus, alts [cats [lc "material", sOpt], lc "information"]]),
   mkEnd (lc "appendix")]

/-- `^(\d+\.)\s+([A-Z].{5,60})$` (case-sensitive). -/
def genericRgx : Rgx :=
  cats [digPlus, chrP '.', wsPlus, .pred isUpperAZ, .rep 5 (some 60) notNL, .eol]

/-- `^#+\s*.+$` -/
def mdHeaderRgx : Rgx := cats [hashPlus, wsStar, .rep 1 none notNL, .eol]

/-- `\(\d{4}\)` -/
def yearParenRgx : Rgx := cats [chrP '(', .rep 4 (some 4) isDigit09, chrP ')']

/-- `\d+[-–]\d+` -/
def pageRangeRgx : Rgx := cats [digPlus, .pred dashChar, digPlus]

/-! ### Noise patterns (`NOISE_PATTERNS`, applied with `re.match` under
IGNORECASE).  Every pattern ends in `.*$` or `\s*$`; we keep that shape
explicit (`mkNoise body tailClass`). -/

def mkNoise (body : Rgx) (p : Char → Bool) : Rgx :=
  .cat body (.cat (.rep 0 none p) .eol)

def noisePatterns : List Rgx :=
  [mkNoise (cats [wsStar, .opt (.pred (fun c => c = '-' || c = '*')), wsStar,
                  lc "corresponding", wsPlus, lc "author", .opt (chrP '.')]) notNL,
   mkNoise (cats [wsStar, .rep 1 (some 2) (fun c => c = '*'), wsStar,
                  lc "corresponding", wsPlus, lc "author", .opt (chrP '.')]) notNL,
   mkNoise (cats [wsStar, lc "e", .opt (chrP '-'), lc "mail", wsStar, chrP ':']) notNL,
   mkNoise (cats [wsStar, chrP '[', lc "e", .opt (chrP '-'), lc "mail", wsPlus,
                  lc "address", chrP ':']) notNL,
   mkNoise (cats [wsStar, lc "tel", .opt (chrP '.'), wsStar, chrP ':']) notNL,
   mkNoise (cats [wsStar, lc "fax", wsStar, chrP ':']) notNL,
   mkNoise (cats [wsStar, lc "http", .opt (chrCI 's'), lc "://"]) notNL,
   mkNoise (cats [wsStar, chrP '[', lc "http", .opt (chrCI 's'), lc "://"]) notNL,
   mkNoise (cats [wsStar, .rep 1 (some 3) isDigit09]) pyWs,
   mkNoise (cats [wsStar, .pred isAlphaCI, chrP '.', wsStar, .pred isAlphaCI,
                  .rep 1 none isAlphaCI, wsPlus, lc "et", wsPlus, lc "al", chrP '.']) notNL,
   mkNoise (cats [dotStar, chrP '(', .rep 4 (some 4) isDigit09, chrP ')', wsStar,
                  digPlus, .pred dashChar, digPlus]) pyWs,
   mkNoise (cats [wsStar, chrP '#', digPlus, .pred dashChar]) notNL,
   mkNoise (cats [wsStar, digPlus, wsPlus, lc "these", wsPlus, lc "authors", wsPlus,
                  lc "contribute"]) notNL,
   mkNoise (cats [wsStar, lc "received", wsPlus, digPlus]) notNL,
   mkNoise (cats [wsStar, lc "available", wsPlus, lc "online"]) notNL,
   mkNoise (cats [wsStar, .rep 4 (some 4) isDigit09, chrP '-', .rep 4 (some 4) isDigit09,
                  chrP '/']) notNL,
   mkNoise (cats [chrP '[', lc "by-nc-nd", wsPlus, lc "license"]) notNL]

/-- A line dropped by `clean_content`. -/
def isNoiseLine (l : Str) : Bool := noisePatterns.any (fun p => matchesAt0 p l)

/-- `re.sub(chr(92) ++ "n" three-or-more, two newlines, s)`: cap every run of
newlines at two (state = newlines emitted in the current run). -/
def collapseGo : Nat → Str → Str
  | _, [] => []
  | k, c :: r =>
    if c = '\n' then
      if 2 ≤ k then collapseGo k r else '\n' :: collapseGo (k + 1) r
    else c :: collapseGo 0 r

def collapseNL (s : Str) : Str := collapseGo 0 s

/-- `clean_content` of `extract_sections.py`. -/
def cleanContent (s : Str) : Str :=
  stripWs (collapseNL (joinNL ((splitNL s).filter (fun l => !(isNoiseLine l)))))

/-! ## Fuzzy header classification

`fuzz.ratio` / `fuzz.partial_ratio` come from rapidfuzz, an external
library (not part of this repository).  Modelled from the spec: the ratio
is the normalized indel similarity `100 * 2 * lcs / (len1 + len2)` and the
second score is the best-substring ("partial") ratio, the ratio of the
shorter string against the best-aligned window of the longer one.
Thresholds are compared exactly over rationals. -/

def lcsRowGo (c : Char) : List Char → List Nat → Nat → Nat → List Nat
  | [], _, _, _ => []
  | y :: ys, prevRest, diag, left =>
    let up := prevRest.headD 0
    let nj := if y = c then diag + 1 else max left up
    nj :: lcsRowGo c ys prevRest.tail up nj

def lcsNextRow (b : Str) (prev : List Nat) (c : Char) : List Nat :=
  0 :: lcsRowGo c b prev.tail (prev.headD 0) 0

/-- Length of the longest common subsequence (dynamic programming). -/
def lcsLen (a b : Str) : Nat :=
  (a.foldl (lcsNextRow b) (List.replicate (b.length + 1) 0)).getLastD 0

/-- `fuzz.ratio(a, b) >= t` (t on the 0-100 scale). -/
def ratioGE (a b : Str) (t : Nat) : Bool :=
  if a.length + b.length = 0 then decide (t ≤ 100)
  else decide (t * (a.length + b.length) ≤ 200 * lcsLen a b)

def windowsOf (l : Str) (k : Nat) : List Str :=
  (List.range (l.length - k + 1)).map (fun i => (l.drop i).take k)

/-- `fuzz.partial_ratio(a, b) >= t`: some window of the longer string of
the shorter string's length reaches the threshold. -/
def windowRatioGE (a b : Str) (t : Nat) : Bool :=
  let s := if a.length ≤ b.length then a else b
  let l := if a.length ≤ b.length then b else a
  (windowsOf l s.length).any (fun w => ratioGE s w t)

def SECTION_KEYWORDS : List (SectionKind × List Str) :=
  [(.introduction,
    ["introduction".data, "background".data, "overview".data, "preface".data,
     "motivation".data, "background and motivation".data]),
   (.conclusion,
    ["conclusion".data, "conclusions".data, "concluding remarks".data, "summary".data,
     "summary and conclusions".data, "final remarks".data, "closing remarks".data,
     "general conclusions".data, "concluding notes".data]),
   (.future_outlook,
    ["future work".data, "future works".data, "future outlook".data, "future directions".data,
     "future research".data, "future perspectives".data, "future studies".data,
     "outlook".data, "perspectives".data, "outlook and perspectives".data,
     "perspectives and outlook".data, "open questions".data, "open challenges".data,
     "implications".data, "implications and future work".data, "roadmap".data]),
   (.results, ["results".data, "findings".data, "experimental results".data]),
   (.discussion, ["discussion".data, "analysis".data, "results and discussion".data])]

def numClassChar (c : Char) : Bool := isDigit09 c || c = '.' || c = 'I' || c = 'V' || c = 'X'

/-- First cleaning substitution of `fuzzy_match_section` (case-sensitive,
anchored at the string start): strip a leading numbering run then spaces. -/
def subLeadNum (h : Str) : Str :=
  match h with
  | [] => []
  | c :: _ => if numClassChar c then (h.dropWhile numClassChar).dropWhile pyWs else h

/-- Second substitution: delete every marker character (global). -/
def removeHashStar (s : Str) : Str := s.filter (fun c => !(c = '#' || c = '*'))

def fuzzyScanKinds (cleaned : Str) (t : Nat) :
    List (SectionKind × List Str) → Option SectionKind
  | [] => none
  | (k, kws) :: rest =>
    if kws.any (fun kw => ratioGE cleaned kw t || windowRatioGE cleaned kw t) then some k
    else fuzzyScanKinds cleaned t rest

/-- `fuzzy_match_section` of `extract_sections.py`. -/
def fuzzyMatchSection (h : Str) (t : Nat) : Option SectionKind :=
  fuzzyScanKinds (lowerStr (stripWs (removeHashStar (subLeadNum h)))) t SECTION_KEYWORDS

/-! ## Content-based detection -/

def CONCLUSION_INDICATORS : List Str :=
  ["in conclusion".data, "to conclude".data, "in summary".data, "we have shown".data,
   "this study demonstrates".data, "our findings suggest".data, "we conclude".data,
   "this work has demonstrated".data, "the results demonstrate".data,
   "we have presented".data, "this paper has presented".data, "to summarize".data,
   "in this paper, we have".data, "our results show that".data, "we have demonstrated".data]

def INTRODUCTION_INDICATORS : List Str :=
  ["in this paper".data, "in this study".data, "in this work".data, "we present".data,
   "this paper presents".data, "the purpose of this".data, "the goal of this".data,
   "the aim of this".data, "this study aims".data, "we propose".data, "we introduce".data]

def indicatorsFor (sectionType : Str) : List Str :=
  if sectionType = ("conclusion".data) then CONCLUSION_INDICATORS else INTRODUCTION_INDICATORS

/-- `detect_section_by_content` of `extract_sections.py`. -/
def detectSectionByContent (text : Str) (sectionType : Str) : Bool :=
  decide (2 ≤ (indicatorsFor sectionType).countP (fun ind => containsSub ind (lowerStr text)))

/-! ## DOI extraction -/

/-- `doi\s*[:/]?\s*` -/
def doiPreA : Rgx := cats [lc "doi", wsStar, .opt (.pred (fun c => c = ':' || c = '/')), wsStar]

/-- `https?://(?:dx\.)?doi\.org/` -/
def doiPreB : Rgx := cats [lc "http", .opt (chrCI 's'), lc "://", .opt (lc "dx."), lc "doi.org/"]

def doiPreRgx : Rgx := .opt (.alt doiPreA doiPreB)

/-- `10\.\d{4,}/[^\s]+` (the captured group). -/
def doiGroupRgx : Rgx :=
  cats [.lit ("10.".data), .rep 4 none isDigit09, chrP '/', .rep 1 none (fun c => !(pyWs c))]

def firstDoiGroup : List Str → Option Str
  | [] => none
  | rem1 :: rest =>
    match (rgxEnds doiGroupRgx rem1).head? with
    | some rem2 => some (rem1.take (rem1.length - rem2.length))
    | none => firstDoiGroup rest

def doiSearchAux : Nat → Str → Option Str
  | 0, _ => none
  | f + 1, s =>
    match firstDoiGroup (rgxEnds doiPreRgx s) with
    | some g => some g
    | none =>
      match s with
      | [] => none
      | _ :: r => doiSearchAux f r

def doiTrailPunct (c : Char) : Bool :=
  c = '.' || c = ',' || c = ';' || c = ':' || c = ')' || c = ']'

/-- `extract_doi` of `extract_sections.py`. -/
def extractDoi (text : Str) : Option Str :=
  (doiSearchAux (text.length + 1) text).map
    (fun d => (d.reverse.dropWhile doiTrailPunct).reverse)

/-! ## Boundary collection -/

inductive BKind where
  | sec (k : SectionKind)
  | generic
  | mdHeader
  | endSec
deriving DecidableEq, Repr

structure SecBoundary where
  pos : Nat
  kind : BKind
  text : Str
deriving DecidableEq, Repr

/-- Generic numbered-section boundaries with the citation filters. -/
def genericBoundaries (md : Str) : List SecBoundary :=
  (scanLines genericRgx md).filterMap (fun m =>
    let header := m.matched
    if containsSub ("et al".data) (lowerStr header) then none
    else if searchAnywhere yearParenRgx header then none
    else if searchAnywhere pageRangeRgx header then none
    else if wordCount header < 2 then none
    else some ⟨m.start, .generic, header⟩)

def targetKindsInOrder : List SectionKind :=
  [.introduction, .conclusion, .future_outlook, .results, .discussion]

def targetBoundaries (md : Str) : List SecBoundary :=
  targetKindsInOrder.flatMap (fun k =>
    (scanLines (targetRgx k) md).map (fun m => ⟨m.start, .sec k, m.matched⟩))

/-- `re.sub("^#+" ++ ws-star, "", header_text)`. -/
def dropHashWs (h : Str) : Str :=
  match h with
  | [] => []
  | c :: _ => if c = '#' then (h.dropWhile (fun d => d = '#')).dropWhile pyWs else h

def mdHeaderBoundaries (md : Str) : List SecBoundary :=
  (scanLines mdHeaderRgx md).filterMap (fun m =>
    let ht := m.matched
    let hc := dropHashWs ht
    if (match hc with | [] => false | c :: _ => isDigit09 c) then none
    else if (stripWs hc).length < 4 then none
    else if containsSub ("@".data) hc || containsSub ("mailto:".data) hc ||
            containsSub ("http".data) hc then none
    else some ⟨m.start,
      (match fuzzyMatchSection ht 80 with | some k => .sec k | none => .mdHeader), ht⟩)

def endBoundaries (md : Str) : List SecBoundary :=
  endSectionRgxs.flatMap (fun r =>
    (scanLines r md).map (fun m => ⟨m.start, .endSec, m.matched⟩))

/-- All boundaries, in the accumulation order of the source. -/
def extractedBoundaries (md : Str) : List SecBoundary :=
  genericBoundaries md ++ targetBoundaries md ++ mdHeaderBoundaries md ++ endBoundaries md

def bLE : SecBoundary → SecBoundary → Prop := fun a b => a.pos ≤ b.pos

instance : DecidableRel bLE := fun a b => Nat.decLe a.pos b.pos

instance : IsTotal SecBoundary bLE := ⟨fun a b => Nat.le_total a.pos b.pos⟩

instance : IsTrans SecBoundary bLE := ⟨fun _ _ _ h1 h2 => Nat.le_trans h1 h2⟩

/-- `extracted_boundaries.sort(key=lambda x: x[0])` (stable). -/
def sortedBoundaries (md : Str) : List SecBoundary :=
  List.insertionSort bLE (extractedBoundaries md)

/-! ## The section extractor -/

/-- Match start, match end, and whether the canonical regex (rather than a
merged-list boundary) produced the match — `(match_start, match_end, bool(match))`. -/
def findMatchInfo (md : Str) (k : SectionKind) : Option (Nat × Nat × Bool) :=
  match searchLines (targetRgx k) md with
  | some m => some (m.start, m.start + m.matched.length, true)
  | none =>
    match (sortedBoundaries md).find? (fun b => decide (b.kind = BKind.sec k)) with
    | some b => some (b.pos, b.pos + b.text.length, false)
    | none => none

/-- First boundary strictly beyond the 10-character self-match buffer. -/
def findEndIdx : List SecBoundary → Nat → Nat → Nat
  | [], _, d => d
  | b :: rest, c, d => if c < b.pos then b.pos else findEndIdx rest c d

def sectionEndIndex (md : Str) (mStart : Nat) : Nat :=
  findEndIdx (sortedBoundaries md) (mStart + 10) md.length

/-- The trimmed slice the source computes for a matched section:
`markdown_text[match_end if match else match_start : end_index].strip()`. -/
def rawSlice (md : Str) (k : SectionKind) : Option Str :=
  (findMatchInfo md k).map (fun info =>
    stripWs (sliceRange md (if info.2.2 then info.2.1 else info.1) (sectionEndIndex md info.1)))

/-- The header-derived entry after the minimum-length filter (`len > 50`). -/
def headerEntry (md : Str) (k : SectionKind) : Option Str :=
  (rawSlice md k).bind (fun c => if 50 < c.length then some c else none)

structure Extracted where
  introduction : Option Str := none
  conclusion : Option Str := none
  future_outlook : Option Str := none
  results : Option Str := none
  discussion : Option Str := none
  conclusion_note : Bool := false
deriving DecidableEq, Repr

def Extracted.get (e : Extracted) : SectionKind → Option Str
  | .introduction => e.introduction
  | .conclusion => e.conclusion
  | .future_outlook => e.future_outlook
  | .results => e.results
  | .discussion => e.discussion

/-- `markdown_text[-2000:]` guarded exactly as in the source. -/
def lastPortion (md : Str) : Str :=
  if 2000 < md.length then md.drop (md.length - 2000) else md

def nlnl : Str := '\n' :: '\n' :: []

/-- The five header-derived entries of the extraction loop. -/
def extractBase (md : Str) : Extracted :=
  { introduction := headerEntry md .introduction,
    conclusion := headerEntry md .conclusion,
    future_outlook := headerEntry md .future_outlook,
    results := headerEntry md .results,
    discussion := headerEntry md .discussion }

/-- The conclusion content built by the content-based fallback: the last
three blank-line-separated paragraphs, rejoined and trimmed. -/
def fallbackConclusion (md : Str) : Str :=
  stripWs (joinSep nlnl ((splitOnSep nlnl md).drop ((splitOnSep nlnl md).length - 3)))

/-- The content-based fallback step of `extract_sections_from_markdown`. -/
def extractFallback (md : Str) (base : Extracted) : Extracted :=
  if detectSectionByContent (lastPortion md) ("conclusion".data) then
    if 3 ≤ (splitOnSep nlnl md).length then
      { base with conclusion := some (fallbackConclusion md), conclusion_note := true }
    else base
  else base

/-- `extract_sections_from_markdown` of `extract_sections.py` (the
`_conclusion_note` companion key is modelled by the `conclusion_note` flag). -/
def extractSectionsFromMarkdown (md : Str) : Extracted :=
  match headerEntry md SectionKind.conclusion with
  | some _ => extractBase md
  | none => extractFallback md (extractBase md)

/-- The per-document cleaning loop of `process_pdfs` (clean every section
entry, leave the note untouched). -/
def processSections (e : Extracted) : Extracted :=
  { e with
    introduction := e.introduction.map cleanContent,
    conclusion := e.conclusion.map cleanContent,
    future_outlook := e.future_outlook.map cleanContent,
    results := e.results.map cleanContent,
    discussion := e.discussion.map cleanContent }

/-- Extraction followed by noise filtering, as a document is processed in
`process_pdfs`. -/
def processDocumentSections (md : Str) : Extracted :=
  processSections (extractSectionsFromMarkdown md)

/-! ## Auxiliary definitions used by the verification -/

/-- Scanner invariant for `collapseNL`: starting with `k` pending newlines,
no run of newlines ever exceeds two. -/
def noTripleFrom : Nat → Str → Bool
  | _, [] => true
  | k, c :: r =>
    if c = '\n' then decide (k < 2) && noTripleFrom (k + 1) r else noTripleFrom 0 r

/-- First line of a string. -/
def headLine (s : Str) : Str := (splitNL s).headD []

/-! ### Concrete documents used as counterexamples / witnesses -/

/-- Two boundaries ten characters apart (within the self-match buffer). -/
def cexC2doc : Str :=
  ("# Results\n# Conclusion\nthe experiments reported here show several clear trends.").data

def cexC2content : Str :=
  ("# Conclusion\nthe experiments reported here show several clear trends.").data

def witC2doc : Str :=
  ("# Results\nBody text for the results section goes right here.\n# Conclusion\nMore text here to finish this.").data

def witC2content : Str := ("Body text for the results section goes right here.").data

/-- A header whose trimmed content is exactly 50 characters long. -/
def cexC3doc : Str :=
  ("# Introduction\nThis paper studies graphene oxide synthesis today.").data

def cexC3content : Str := ("This paper studies graphene oxide synthesis today.").data

def witC3doc : Str :=
  ("# Introduction\nThis paper studies graphene oxide synthesis todayy.").data

def witC3content : Str := ("This paper studies graphene oxide synthesis todayy.").data

/-- A section found only through a fuzzy-matched boundary (no canonical
regex match): the source then slices from `match_start`. -/
def bugC4doc : Str :=
  ("## Summery\nwe analyse the data and draw several broad lessons here.").data

/-- Two conclusion indicators but only one blank-line paragraph. -/
def cexC5doc : Str := ("In conclusion, we have shown that the method scales.").data

def witC5doc : Str :=
  ("Intro text.\n\nMiddle part discussion here.\n\nIn conclusion, we have shown the approach works well.").data

/-- One indicator phrase occurring twice. -/
def cexC6txt : Str := ("In conclusion: strong results; again in conclusion here.").data

/-- Leading whitespace hides the column-0-anchored license noise pattern. -/
def cexC8txt : Str := (" [BY-NC-ND license]").data

def witC8txt : Str := ("Alpha beta.\n\n\n\nGamma delta.").data

/-! # Theorems -/

/-! ## Generic helper lemmas about the string utilities -/

theorem trimLeftWs_idem (s : Str) : trimLeftWs (trimLeftWs s) = trimLeftWs s := by
  induction s with
  | nil => rfl
  | cons c r ih =>
    by_cases h : pyWs c
    · simpa [trimLeftWs, List.dropWhile_cons, h] using ih
    · simp [trimLeftWs, List.dropWhile_cons, h]

theorem trimRightWs_idem (s : Str) : trimRightWs (trimRightWs s) = trimRightWs s := by
  have h := trimLeftWs_idem s.reverse
  simp only [trimLeftWs] at h
  simp [trimRightWs, h]

theorem length_dropWhile_le_len (p : Char → Bool) (l : List Char) :
    (l.dropWhile p).length ≤ l.length := by
  induction l with
  | nil => simp
  | cons c r ih =>
    by_cases h : p c
    · simp only [List.dropWhile_cons, h, if_true, List.length_cons]
      omega
    · simp [List.dropWhile_cons, h]

theorem trimRightWs_append_ws (s : Str) :
    ∃ w, s = trimRightWs s ++ w ∧ ∀ c ∈ w, pyWs c = true := by
  refine ⟨(s.reverse.takeWhile pyWs).reverse, ?_, ?_⟩
  · rw [trimRightWs, ← List.reverse_append, List.takeWhile_append_dropWhile,
      List.reverse_reverse]
  · intro c hc
    rw [List.mem_reverse] at hc
    exact List.mem_takeWhile_imp hc

theorem trimRightWs_isPre (s : Str) : trimRightWs s <+: s := by
  obtain ⟨w, hw, -⟩ := trimRightWs_append_ws s
  exact ⟨w, hw.symm⟩

theorem trimLeftWs_isSuf (s : Str) : trimLeftWs s <:+ s := by
  refine ⟨s.takeWhile pyWs, ?_⟩
  exact List.takeWhile_append_dropWhile pyWs s

theorem trimLeftWs_trimRightWs_of_trimmed (s : Str) (h : trimLeftWs s = s) :
    trimLeftWs (trimRightWs s) = trimRightWs s := by
  cases hs : s with
  | nil => subst hs; rfl
  | cons c r =>
    have hc : pyWs c = false := by
      by_contra hne
      have hc : pyWs c = true := by
        cases hcc : pyWs c
        · exact absurd hcc hne
        · rfl
      rw [hs] at h
      have hlen : (List.dropWhile pyWs r).length ≤ r.length := length_dropWhile_le_len pyWs r
      simp only [trimLeftWs, List.dropWhile_cons, hc, if_true] at h
      have := congrArg List.length h
      simp at this
      omega
    cases htr : trimRightWs (c :: r) with
    | nil => rfl
    | cons d w =>
      have hpre := trimRightWs_isPre (c :: r)
      rw [htr] at hpre
      obtain ⟨t, ht⟩ := hpre
      have hd : d = c := by
        have := ht
        simp at this
        exact this.1
      subst hd
      simp [trimLeftWs, List.dropWhile_cons, hc]

theorem stripWs_idem (s : Str) : stripWs (stripWs s) = stripWs s := by
  unfold stripWs
  rw [trimLeftWs_trimRightWs_of_trimmed (trimLeftWs s) (trimLeftWs_idem s),
    trimRightWs_idem]

theorem stripWs_isInfix (s : Str) : stripWs s <:+: s :=
  (trimRightWs_isPre (trimLeftWs s)).isInfix.trans (trimLeftWs_isSuf s).isInfix

theorem sliceRange_isInfix (s : Str) (a b : Nat) : sliceRange s a b <:+: s :=
  ((s.take b).drop_suffix a).isInfix.trans (s.take_prefix b).isInfix

/-! ## Substring-containment bridge (for C6) -/

theorem containsSub_iff (n h : Str) :
    containsSub n h = true ↔ ∃ i, n <+: h.drop i := by
  induction h with
  | nil =>
    simp only [containsSub, List.isEmpty_iff, List.drop_nil]
    constructor
    · rintro rfl
      exact ⟨0, List.nil_prefix⟩
    · rintro ⟨i, hi⟩
      exact List.prefix_nil.mp hi
  | cons c r ih =>
    simp only [containsSub, Bool.or_eq_true, List.isPrefixOf_iff_prefix, ih]
    constructor
    · rintro (hp | ⟨i, hi⟩)
      · exact ⟨0, by simpa using hp⟩
      · exact ⟨i + 1, by simpa using hi⟩
    · rintro ⟨i, hi⟩
      cases i with
      | zero => exact Or.inl (by simpa using hi)
      | succ j => exact Or.inr ⟨j, by simpa using hi⟩

theorem occCount_pos_iff (n h : Str) : 0 < occCount n h ↔ containsSub n h = true := by
  rw [containsSub_iff]
  unfold occCount
  rw [List.countP_pos_iff]
  constructor
  · rintro ⟨i, -, hi⟩
    exact ⟨i, List.isPrefixOf_iff_prefix.mp hi⟩
  · rintro ⟨i, hi⟩
    by_cases hle : i ≤ h.length
    · exact ⟨i, List.mem_range.mpr (by omega), List.isPrefixOf_iff_prefix.mpr hi⟩
    · have hdrop : h.drop i = [] := List.drop_eq_nil_of_le (by omega)
      rw [hdrop] at hi
      have hn : n = [] := List.prefix_nil.mp hi
      refine ⟨0, List.mem_range.mpr (by omega), ?_⟩
      rw [hn]
      exact List.isPrefixOf_iff_prefix.mpr (List.nil_prefix)

theorem containsSub_eq_decide_occ (n h : Str) :
    containsSub n h = decide (0 < occCount n h) := by
  by_cases hp : 0 < occCount n h
  · rw [(occCount_pos_iff n h).mp hp, decide_eq_true hp]
  · have hc : containsSub n h = false :=
      Bool.not_eq_true _ ▸ (fun hcc => hp ((occCount_pos_iff n h).mpr hcc))
    rw [hc, decide_eq_false hp]

/-! ## Claim C1 -/

/-- C1: every entry of the mapping a processed document ends up with equals
the Noise Filter applied to the raw extracted slice — the pipeline cleans
every extracted section's content before returning it. -/
theorem c1_sections_are_noise_filtered (md : Str) (k : SectionKind) :
    (processDocumentSections md).get k =
      ((extractSectionsFromMarkdown md).get k).map cleanContent := by
  cases k <;> rfl

/-! ## Claim C7 -/

/-- C7: at the default threshold of 80 the fuzzy header classifier sends
"Concluding Remarks" to `conclusion`, "Future Work" to `future_outlook`,
and classifies neither "Methods" nor "Random Text". -/
theorem c7_fuzzy_classifier_examples :
    fuzzyMatchSection (("Concluding Remarks").data) 80 = some SectionKind.conclusion ∧
    fuzzyMatchSection (("Future Work").data) 80 = some SectionKind.future_outlook ∧
    fuzzyMatchSection (("Methods").data) 80 = none ∧
    fuzzyMatchSection (("Random Text").data) 80 = none := by
  refine ⟨by decide, by decide, by decide, by decide⟩

/-! ## Claim C9 -/

/-- C9: the DOI locator strips `doi:` and `doi.org` / `dx.doi.org` URL
prefixes, strips trailing punctuation, and returns none when nothing
matches. -/
theorem c9_doi_locator_examples :
    extractDoi (("doi:10.1038/nature12345").data) = some (("10.1038/nature12345").data) ∧
    extractDoi (("https://doi.org/10.1126/science.abc123").data) =
      some (("10.1126/science.abc123").data) ∧
    extractDoi (("http://dx.doi.org/10.1371/journal.pone.0123456").data) =
      some (("10.1371/journal.pone.0123456").data) ∧
    extractDoi (("DOI: 10.1038/nature12345.").data) = some (("10.1038/nature12345").data) ∧
    extractDoi (("no identifier present here").data) = none := by
  refine ⟨by decide, by decide, by decide, by decide, by decide⟩

/-! ## Claim C6 -/

/-- C6 counterexample: a text containing two occurrences of the single
indicator phrase "in conclusion" (and no other indicator) is rejected by
`detect_section_by_content`, although the occurrence count is 2 — the code
counts distinct phrases, not occurrences. -/
theorem c6_counterexample_repeated_phrase :
    detectSectionByContent cexC6txt (("conclusion").data) = false ∧
    2 ≤ occCount (("in conclusion").data) (lowerStr cexC6txt) := by
  refine ⟨by decide, by decide⟩

/-- C6 amended: `has_indicators(text, kind)` returns true iff at least two
distinct phrases of the kind's indicator list occur (case-insensitively,
by substring containment, each counted once however often it occurs). -/
theorem c6_amended_two_distinct_phrases (text sectionType : Str) :
    detectSectionByContent text sectionType = true ↔
      2 ≤ (indicatorsFor sectionType).countP
          (fun ind => decide (0 < occCount ind (lowerStr text))) := by
  unfold detectSectionByContent
  rw [decide_eq_true_iff]
  have hfun : (fun ind => containsSub ind (lowerStr text)) =
      (fun ind => decide (0 < occCount ind (lowerStr text))) :=
    funext (fun ind => containsSub_eq_decide_occ ind (lowerStr text))
  rw [hfun]

/-! ## Claim C3 -/

/-- C3 counterexample: a trimmed slice of exactly 50 characters is
discarded (the source keeps content only when `len(content) > 50`),
refuting "a trimmed slice of 50 or more characters yields an entry". -/
theorem c3_counterexample_exact_fifty :
    rawSlice cexC3doc SectionKind.introduction = some cexC3content ∧
    cexC3content.length = 50 ∧
    (extractSectionsFromMarkdown cexC3doc).introduction = none := by
  refine ⟨by decide, by decide, by decide⟩

/-- C3 amended: for a matched header the trimmed slice becomes the
header-derived entry iff its length is strictly greater than 50; a slice
of at most 50 characters (50 included) is discarded. -/
theorem c3_amended_strict_threshold (md : Str) (k : SectionKind) (c : Str)
    (h : rawSlice md k = some c) :
    (headerEntry md k = some c ↔ 50 < c.length) ∧
    (c.length ≤ 50 → headerEntry md k = none) := by
  unfold headerEntry
  rw [h]
  by_cases hl : 50 < c.length
  · refine ⟨by simp [hl], fun hle => absurd hl (by omega)⟩
  · refine ⟨by simp [hl], fun _ => by simp [hl]⟩

theorem c3_amended_strict_threshold_witness :
    headerEntry witC3doc SectionKind.introduction = some witC3content ∧
    50 < witC3content.length := by
  have h : rawSlice witC3doc SectionKind.introduction = some witC3content := by decide
  have hl : 50 < witC3content.length := by decide
  exact ⟨((c3_amended_strict_threshold witC3doc SectionKind.introduction witC3content h).1).mpr hl,
    hl⟩

/-! ## Claim C4 -/

/-- C4: on a document whose conclusion is found only through a
fuzzy-matched boundary (no canonical regex match — `bool(match)` is false),
the source slices from `match_start`, so the extracted content starts with
the matched header text itself, contradicting the spec's "slice from the
end of the matched header".  The pseudo-match end (position 10) is computed
and then never used — a dead store. -/
theorem c4_fuzzy_slice_includes_header :
    findMatchInfo bugC4doc SectionKind.conclusion = some (0, 10, false) ∧
    (extractSectionsFromMarkdown bugC4doc).conclusion = some bugC4doc ∧
    (("## Summery").data).isPrefixOf bugC4doc = true := by
  refine ⟨by decide, by decide, by decide⟩

/-! ## Claim C5 -/

/-- C5 counterexample: a document with two conclusion indicators in its
final 2000 characters, no conclusion header, but fewer than three
blank-line paragraphs yields no conclusion entry at all. -/
theorem c5_counterexample_needs_three_paragraphs :
    headerEntry cexC5doc SectionKind.conclusion = none ∧
    detectSectionByContent (lastPortion cexC5doc) (("conclusion").data) = true ∧
    (splitOnSep nlnl cexC5doc).length < 3 ∧
    (extractSectionsFromMarkdown cexC5doc).conclusion = none ∧
    (extractSectionsFromMarkdown cexC5doc).conclusion_note = false := by
  refine ⟨by decide, by decide, by decide, by decide, by decide⟩

/-- C5 amended: when additionally the document splits into at least three
blank-line-separated paragraphs, the fallback fires: the conclusion entry
is the rejoined trimmed last three paragraphs, tagged as detected by
content analysis. -/
theorem c5_amended_fallback (md : Str)
    (h1 : headerEntry md SectionKind.conclusion = none)
    (h2 : detectSectionByContent (lastPortion md) (("conclusion").data) = true)
    (h3 : 3 ≤ (splitOnSep nlnl md).length) :
    (extractSectionsFromMarkdown md).conclusion = some (fallbackConclusion md) ∧
    (extractSectionsFromMarkdown md).conclusion_note = true := by
  unfold extractSectionsFromMarkdown
  rw [h1]
  show (extractFallback md (extractBase md)).conclusion = _ ∧
    (extractFallback md (extractBase md)).conclusion_note = true
  unfold extractFallback
  rw [h2]
  simp only [eq_self_iff_true, if_true]
  rw [if_pos h3]
  exact ⟨rfl, rfl⟩

theorem c5_amended_fallback_witness :
    (extractSectionsFromMarkdown witC5doc).conclusion = some (fallbackConclusion witC5doc) ∧
    (extractSectionsFromMarkdown witC5doc).conclusion_note = true :=
  c5_amended_fallback witC5doc (by decide) (by decide) (by decide)

/-! ## Claim C2 -/

theorem findEndIdx_le_of_mem (bs : List SecBoundary) (c d : Nat)
    (hs : bs.Pairwise bLE) (b : SecBoundary) (hb : b ∈ bs) (hgt : c < b.pos) :
    findEndIdx bs c d ≤ b.pos := by
  induction bs with
  | nil => cases hb
  | cons a rest ih =>
    rw [findEndIdx]
    obtain ⟨hhead, htail⟩ := List.pairwise_cons.mp hs
    by_cases hc : c < a.pos
    · rw [if_pos hc]
      rcases List.mem_cons.mp hb with rfl | hmem
      · exact Nat.le_refl _
      · exact hhead b hmem
    · rw [if_neg hc]
      rcases List.mem_cons.mp hb with rfl | hmem
      · omega
      · exact ih htail hmem

/-- C2 counterexample: the document has detected boundaries at positions 0
and 10 (10 characters apart, inside the self-match buffer, with 0 the match
start of the `results` section), yet the content attributed to the section
starting at 0 is not contained in the document prefix before position 10 —
it contains the text at and after offset 10. -/
theorem c2_counterexample_buffer_violation :
    ((extractedBoundaries cexC2doc).map SecBoundary.pos).contains 0 = true ∧
    ((extractedBoundaries cexC2doc).map SecBoundary.pos).contains 10 = true ∧
    findMatchInfo cexC2doc SectionKind.results = some (0, 9, true) ∧
    rawSlice cexC2doc SectionKind.results = some cexC2content ∧
    (extractSectionsFromMarkdown cexC2doc).results = some cexC2content ∧
    ¬ (cexC2content <:+: cexC2doc.take 10) := by
  refine ⟨by decide, by decide, by decide, by decide, by decide, ?_⟩
  intro hinf
  have hlen := hinf.length_le
  rw [show cexC2content.length = 69 from by decide,
    show (cexC2doc.take 10).length = 10 from by decide] at hlen
  omega

/-- C2 amended: the buffer-corrected invariant.  For a matched section with
match start `s`, every detected boundary strictly beyond the ten-character
self-match buffer (`s + 10 < p2`) bounds the section: the computed end
index stays at or before it, and the attributed trimmed content is
contained in the document prefix before that boundary.  (Boundaries at
`p1 < p2 ≤ p1 + 10` are skipped by the buffer, as the counterexample
shows.) -/
theorem c2_amended_boundary_delimits_beyond_buffer (md : Str) (k : SectionKind)
    (s e : Nat) (r : Bool) (b : SecBoundary)
    (hm : findMatchInfo md k = some (s, e, r))
    (hb : b ∈ extractedBoundaries md) (hp : s + 10 < b.pos) :
    sectionEndIndex md s ≤ b.pos ∧
    ∀ c, rawSlice md k = some c → c <:+: md.take b.pos := by
  have hbs : b ∈ sortedBoundaries md :=
    ((List.perm_insertionSort bLE (extractedBoundaries md)).mem_iff).mpr hb
  have hsorted : (sortedBoundaries md).Pairwise bLE :=
    List.sorted_insertionSort bLE (extractedBoundaries md)
  have hend : sectionEndIndex md s ≤ b.pos :=
    findEndIdx_le_of_mem (sortedBoundaries md) (s + 10) md.length hsorted b hbs hp
  refine ⟨hend, fun c hc => ?_⟩
  rw [rawSlice, hm] at hc
  simp only [Option.map_some'] at hc
  have hslice : sliceRange md (if r then e else s) (sectionEndIndex md s) <:+:
      md.take b.pos := by
    have h1 : (md.take (sectionEndIndex md s)).drop (if r then e else s) <:+
        md.take (sectionEndIndex md s) := List.drop_suffix _ _
    have h2 : md.take (sectionEndIndex md s) <+: md.take b.pos := by
      have : md.take (sectionEndIndex md s) = (md.take b.pos).take (sectionEndIndex md s) := by
        rw [List.take_take, Nat.min_eq_left hend]
      rw [this]
      exact List.take_prefix _ _
    exact h1.isInfix.trans h2.isInfix
  have hc2 := Option.some.inj hc
  rw [← hc2]
  exact (stripWs_isInfix _).trans hslice

theorem c2_amended_boundary_delimits_witness :
    sectionEndIndex witC2doc 0 ≤ 61 ∧ witC2content <:+: witC2doc.take 61 := by
  have h := c2_amended_boundary_delimits_beyond_buffer witC2doc SectionKind.results 0 9 true
    ⟨61, BKind.sec SectionKind.conclusion, ("# Conclusion").data⟩
    (by decide) (by decide) (by decide)
  exact ⟨h.1, h.2 witC2content (by decide)⟩

/-! ## Claim C10 -/

theorem findOcc_some (sep s : Str) (i : Nat) (h : findOcc sep s = some i) :
    sep <+: s.drop i ∧ i ≤ s.length := by
  induction s generalizing i with
  | nil =>
    rw [findOcc] at h
    by_cases hp : sep.isPrefixOf ([] : Str)
    · rw [if_pos hp] at h
      cases h
      exact ⟨List.isPrefixOf_iff_prefix.mp hp, by simp⟩
    · rw [if_neg hp] at h
      cases h
  | cons ch r ih =>
    rw [findOcc] at h
    by_cases hp : sep.isPrefixOf (ch :: r)
    · rw [if_pos hp] at h
      cases h
      exact ⟨List.isPrefixOf_iff_prefix.mp hp, by simp⟩
    · rw [if_neg hp] at h
      cases hfo : findOcc sep r with
      | none => rw [hfo] at h; cases h
      | some j =>
        rw [hfo] at h
        simp only [Option.map_some'] at h
        cases h
        obtain ⟨h1, h2⟩ := ih j hfo
        refine ⟨by simpa using h1, ?_⟩
        simp only [List.length_cons]
        omega

theorem splitOnSepFuel_ne_nil (sep : Str) (f : Nat) (s : Str) :
    splitOnSepFuel sep f s ≠ [] := by
  cases f with
  | zero => simp [splitOnSepFuel]
  | succ f =>
    rw [splitOnSepFuel]
    cases findOcc sep s <;> simp

theorem joinSep_splitOnSepFuel (sep : Str) (hsep : sep ≠ []) :
    ∀ f s, s.length ≤ f → joinSep sep (splitOnSepFuel sep f s) = s := by
  intro f
  induction f with
  | zero =>
    intro s hs
    have hz : s = [] := List.length_eq_zero.mp (Nat.le_zero.mp hs)
    subst hz
    rfl
  | succ f ih =>
    intro s hs
    rw [splitOnSepFuel]
    cases hfo : findOcc sep s with
    | none => rfl
    | some i =>
      obtain ⟨hpre, hile⟩ := findOcc_some sep s i hfo
      obtain ⟨t, ht⟩ := hpre
      have hslen : 1 ≤ sep.length := by
        cases sep with
        | nil => exact absurd rfl hsep
        | cons a b => simp
      have hlen_ile : i + sep.length ≤ s.length := by
        have := congrArg List.length ht
        simp only [List.length_append, List.length_drop] at this
        omega
      have hdrop : s.drop (i + sep.length) = t := by
        have h1 : s.drop (i + sep.length) = (s.drop i).drop sep.length := by
          rw [List.drop_drop]
        rw [h1, ← ht, List.drop_left]
      have htlen : t.length ≤ f := by
        have := congrArg List.length ht
        simp only [List.length_append, List.length_drop] at this
        omega
      have hjoin : joinSep sep (s.take i :: splitOnSepFuel sep f (s.drop (i + sep.length))) =
          s.take i ++ sep ++ joinSep sep (splitOnSepFuel sep f (s.drop (i + sep.length))) := by
        cases hsplit : splitOnSepFuel sep f (s.drop (i + sep.length)) with
        | nil => exact absurd hsplit (splitOnSepFuel_ne_nil sep f _)
        | cons x xs => rfl
      rw [hjoin, hdrop, ih t htlen]
      rw [List.append_assoc, ht, List.take_append_drop]

theorem joinSep_suffix_of_drop (sep : Str) (ls : List Str) (m : Nat)
    (h : ls.drop m ≠ []) : joinSep sep (ls.drop m) <:+ joinSep sep ls := by
  induction ls generalizing m with
  | nil => simp at h
  | cons a ls ih =>
    cases m with
    | zero => exact List.suffix_refl _
    | succ m =>
      simp only [List.drop_succ_cons] at h ⊢
      have hne : ls ≠ [] := by
        intro hl
        rw [hl] at h
        simp at h
      have hj : joinSep sep (a :: ls) = (a ++ sep) ++ joinSep sep ls := by
        cases ls with
        | nil => exact absurd rfl hne
        | cons x xs => simp [joinSep, List.append_assoc]
      rw [hj]
      exact (ih m h).trans (List.suffix_append _ _)

theorem fallbackConclusion_trimmed_infix (md : Str)
    (h3 : 3 ≤ (splitOnSep nlnl md).length) :
    fallbackConclusion md <:+: md ∧ stripWs (fallbackConclusion md) = fallbackConclusion md := by
  constructor
  · unfold fallbackConclusion
    have hround : joinSep nlnl (splitOnSep nlnl md) = md :=
      joinSep_splitOnSepFuel nlnl (by decide) md.length md (Nat.le_refl _)
    have hne : (splitOnSep nlnl md).drop ((splitOnSep nlnl md).length - 3) ≠ [] := by
      intro hl
      have := congrArg List.length hl
      simp only [List.length_drop, List.length_nil] at this
      omega
    have hsuf := joinSep_suffix_of_drop nlnl (splitOnSep nlnl md) _ hne
    rw [hround] at hsuf
    exact (stripWs_isInfix _).trans hsuf.isInfix
  · exact stripWs_idem _

theorem rawSlice_shape (md : Str) (k : SectionKind) (c : Str)
    (h : rawSlice md k = some c) :
    ∃ a b, c = stripWs (sliceRange md a b) := by
  unfold rawSlice at h
  cases hm : findMatchInfo md k with
  | none => rw [hm] at h; cases h
  | some info =>
    rw [hm] at h
    simp only [Option.map_some'] at h
    exact ⟨_, _, (Option.some.inj h).symm⟩

theorem headerEntry_trimmed_infix (md : Str) (k : SectionKind) (c : Str)
    (h : headerEntry md k = some c) : c <:+: md ∧ stripWs c = c := by
  unfold headerEntry at h
  cases hr : rawSlice md k with
  | none => rw [hr] at h; cases h
  | some cr =>
    rw [hr] at h
    by_cases hl : 50 < cr.length
    · rw [show (some cr).bind (fun c => if 50 < c.length then some c else none) =
          some cr from by simp [hl]] at h
      have hcc : cr = c := Option.some.inj h
      subst hcc
      obtain ⟨a, b, hab⟩ := rawSlice_shape md k cr hr
      subst hab
      exact ⟨(stripWs_isInfix _).trans (sliceRange_isInfix md a b), stripWs_idem _⟩
    · rw [show (some cr).bind (fun c => if 50 < c.length then some c else none) =
          none from by simp [hl]] at h
      cases h

/-- Shape of the extractor result: every entry is either the header-derived
entry for its kind, or (for the conclusion only) the content-heuristic
fallback with at least three paragraphs available. -/
theorem extract_get_eq (md : Str) (k : SectionKind) :
    (extractSectionsFromMarkdown md).get k = headerEntry md k ∨
    ((extractSectionsFromMarkdown md).get k = some (fallbackConclusion md) ∧
      k = SectionKind.conclusion ∧ 3 ≤ (splitOnSep nlnl md).length) := by
  unfold extractSectionsFromMarkdown
  cases hE : headerEntry md SectionKind.conclusion with
  | some v =>
    left
    cases k <;> rfl
  | none =>
    show (extractFallback md (extractBase md)).get k = _ ∨ _
    unfold extractFallback
    by_cases hd : detectSectionByContent (lastPortion md) (("conclusion").data) = true
    · rw [hd]
      simp only [eq_self_iff_true, if_true]
      by_cases h3 : 3 ≤ (splitOnSep nlnl md).length
      · rw [if_pos h3]
        cases k with
        | conclusion => exact Or.inr ⟨rfl, rfl, h3⟩
        | introduction => exact Or.inl rfl
        | future_outlook => exact Or.inl rfl
        | results => exact Or.inl rfl
        | discussion => exact Or.inl rfl
      · rw [if_neg h3]
        left
        cases k <;> rfl
    · have hd2 : detectSectionByContent (lastPortion md) (("conclusion").data) = false :=
        Bool.not_eq_true _ ▸ hd
      rw [hd2]
      simp only [Bool.false_eq_true, if_false]
      left
      cases k <;> rfl

/-- C10: every section entry the extractor returns (before the separate
noise-filtering step) is a whitespace-trimmed contiguous substring of the
input — both header-delimited slices and the content-heuristic conclusion
built by rejoining the final three blank-line paragraphs. -/
theorem c10_entries_trimmed_substrings (md : Str) (k : SectionKind) (c : Str)
    (h : (extractSectionsFromMarkdown md).get k = some c) :
    c <:+: md ∧ stripWs c = c := by
  rcases extract_get_eq md k with heq | ⟨heq, -, h3⟩
  · rw [heq] at h
    exact headerEntry_trimmed_infix md k c h
  · rw [heq] at h
    obtain rfl := Option.some.inj h
    exact fallbackConclusion_trimmed_infix md h3

theorem c10_entries_trimmed_substrings_witness :
    witC3content <:+: witC3doc ∧ stripWs witC3content = witC3content :=
  c10_entries_trimmed_substrings witC3doc SectionKind.introduction witC3content (by decide)

/-! ## Claim C8: engine lemmas -/

theorem rangeDown_mem (m lo n : Nat) : n ∈ rangeDown m lo ↔ lo ≤ n ∧ n ≤ m := by
  induction m with
  | zero =>
    rw [rangeDown]
    by_cases h : lo = 0
    · subst h
      simp
    · rw [if_neg h]
      simp
      omega
  | succ m ih =>
    rw [rangeDown]
    by_cases h : m + 1 < lo
    · rw [if_pos h]
      simp
      omega
    · rw [if_neg h]
      simp only [List.mem_cons, ih]
      omega

theorem dropLit_suffix (cmp : Char → Char → Bool) (t : Str) :
    ∀ s rem, dropLit cmp t s = some rem → rem <:+ s := by
  induction t with
  | nil =>
    intro s rem h
    rw [dropLit] at h
    cases h
    exact List.suffix_refl _
  | cons a ts ih =>
    intro s rem h
    cases s with
    | nil => rw [dropLit] at h; cases h
    | cons c r =>
      rw [dropLit] at h
      by_cases hc : cmp a c
      · rw [if_pos hc] at h
        exact (ih r rem h).trans (List.suffix_cons c r)
      · rw [if_neg hc] at h
        cases h

theorem maxRun_le (p : Char → Bool) (s : Str) : maxRun p s ≤ s.length := by
  induction s with
  | nil => simp [maxRun]
  | cons c r ih =>
    by_cases hp : p c
    · simp only [maxRun, List.takeWhile_cons, hp, if_true, List.length_cons] at ih ⊢
      omega
    · simp [maxRun, List.takeWhile_cons, hp]

theorem maxRun_le_append (p : Char → Bool) (s ext : Str) :
    maxRun p s ≤ maxRun p (s ++ ext) := by
  induction s with
  | nil => simp [maxRun]
  | cons c r ih =>
    by_cases hp : p c
    · simp only [maxRun, List.cons_append, List.takeWhile_cons, hp, if_true,
        List.length_cons] at ih ⊢
      omega
    · simp [maxRun, List.cons_append, List.takeWhile_cons, hp]

theorem all_of_maxRun_eq_length (p : Char → Bool) (s : Str)
    (h : maxRun p s = s.length) : ∀ c ∈ s, p c = true := by
  intro c hc
  have hpre : s.takeWhile p <+: s := List.takeWhile_prefix p
  have heq : s.takeWhile p = s := hpre.eq_of_length h
  rw [← heq] at hc
  exact List.mem_takeWhile_imp hc

theorem maxRun_eq_of_all (p : Char → Bool) (s : Str) (h : ∀ c ∈ s, p c = true) :
    maxRun p s = s.length := by
  unfold maxRun
  induction s with
  | nil => rfl
  | cons c r ih =>
    rw [List.takeWhile_cons, if_pos (h c (List.mem_cons_self c r))]
    simp only [List.length_cons]
    rw [ih (fun d hd => h d (List.mem_cons_of_mem c hd))]

theorem repEnds_mem_iff (lo : Nat) (hi : Option Nat) (p : Char → Bool) (s rem : Str) :
    rem ∈ repEnds lo hi p s ↔
      ∃ n, lo ≤ n ∧
        n ≤ (match hi with | none => maxRun p s | some h => min (maxRun p s) h) ∧
        rem = s.drop n := by
  simp only [repEnds, List.mem_map, rangeDown_mem]
  constructor
  · rintro ⟨n, ⟨h1, h2⟩, h3⟩
    exact ⟨n, h1, h2, h3.symm⟩
  · rintro ⟨n, h1, h2, h3⟩
    exact ⟨n, ⟨h1, h2⟩, h3.symm⟩

theorem repEnds_full (p : Char → Bool) (s : Str) (h : ∀ c ∈ s, p c = true) :
    ([] : Str) ∈ repEnds 0 none p s := by
  rw [repEnds_mem_iff]
  refine ⟨s.length, Nat.zero_le _, ?_, by simp⟩
  rw [maxRun_eq_of_all p s h]

theorem rgxEnds_suffix (r : Rgx) : ∀ s rem, rem ∈ rgxEnds r s → rem <:+ s := by
  induction r with
  | eps =>
    intro s rem h
    simp only [rgxEnds, List.mem_singleton] at h
    subst h
    exact List.suffix_refl _
  | pred p =>
    intro s rem h
    cases s with
    | nil => simp [rgxEnds] at h
    | cons c cs =>
      rw [rgxEnds] at h
      by_cases hp : p c
      · rw [if_pos hp] at h
        simp only [List.mem_singleton] at h
        subst h
        exact List.suffix_cons c rem
      · rw [if_neg hp] at h
        simp at h
  | lit t =>
    intro s rem h
    rw [rgxEnds] at h
    cases hd : dropLit (fun a b => a = b) t s with
    | none => rw [hd] at h; simp at h
    | some rem2 =>
      rw [hd] at h
      simp only [Option.toList_some, List.mem_singleton] at h
      subst h
      exact dropLit_suffix _ t s rem hd
  | litCI t =>
    intro s rem h
    rw [rgxEnds] at h
    cases hd : dropLit ciEq t s with
    | none => rw [hd] at h; simp at h
    | some rem2 =>
      rw [hd] at h
      simp only [Option.toList_some, List.mem_singleton] at h
      subst h
      exact dropLit_suffix _ t s rem hd
  | cat a b iha ihb =>
    intro s rem h
    rw [rgxEnds, List.mem_flatMap] at h
    obtain ⟨mid, hmid, hrem⟩ := h
    exact (ihb mid rem hrem).trans (iha s mid hmid)
  | alt a b iha ihb =>
    intro s rem h
    rw [rgxEnds, List.mem_append] at h
    rcases h with h | h
    · exact iha s rem h
    · exact ihb s rem h
  | opt r ih =>
    intro s rem h
    rw [rgxEnds, List.mem_append] at h
    rcases h with h | h
    · exact ih s rem h
    · simp only [List.mem_singleton] at h
      subst h
      exact List.suffix_refl _
  | rep lo hi p =>
    intro s rem h
    rw [rgxEnds, repEnds_mem_iff] at h
    obtain ⟨n, -, -, hrem⟩ := h
    subst hrem
    exact List.drop_suffix n s
  | eol =>
    intro s rem h
    cases s with
    | nil =>
      simp only [rgxEnds, List.mem_singleton] at h
      subst h
      exact List.suffix_refl _
    | cons c cs =>
      rw [rgxEnds] at h
      by_cases hc : c = '\n'
      · rw [if_pos hc] at h
        simp only [List.mem_singleton] at h
        subst h
        exact List.suffix_refl _
      · rw [if_neg hc] at h
        simp at h

theorem dropLit_append (cmp : Char → Char → Bool) (t : Str) :
    ∀ s ext rem, dropLit cmp t s = some rem →
      dropLit cmp t (s ++ ext) = some (rem ++ ext) := by
  induction t with
  | nil =>
    intro s ext rem h
    rw [dropLit] at h
    cases h
    rfl
  | cons a ts ih =>
    intro s ext rem h
    cases s with
    | nil => rw [dropLit] at h; cases h
    | cons c r =>
      rw [dropLit] at h
      by_cases hc : cmp a c
      · rw [if_pos hc] at h
        show dropLit cmp (a :: ts) (c :: (r ++ ext)) = _
        rw [dropLit, if_pos hc]
        exact ih r ext rem h
      · rw [if_neg hc] at h
        cases h

theorem rgxEnds_extend (r : Rgx) (hne : r.noEol = true) :
    ∀ s ext rem, rem ∈ rgxEnds r s → rem ++ ext ∈ rgxEnds r (s ++ ext) := by
  induction r with
  | eps =>
    intro s ext rem h
    simp only [rgxEnds, List.mem_singleton] at h ⊢
    rw [h]
  | pred p =>
    intro s ext rem h
    cases s with
    | nil => simp [rgxEnds] at h
    | cons c cs =>
      rw [rgxEnds] at h
      by_cases hp : p c
      · rw [if_pos hp] at h
        simp only [List.mem_singleton] at h
        subst h
        show rem ++ ext ∈ rgxEnds (.pred p) (c :: (rem ++ ext))
        rw [rgxEnds, if_pos hp]
        exact List.mem_singleton.mpr rfl
      · rw [if_neg hp] at h
        simp at h
  | lit t =>
    intro s ext rem h
    rw [rgxEnds] at h
    cases hd : dropLit (fun a b => a = b) t s with
    | none => rw [hd] at h; simp at h
    | some rem2 =>
      rw [hd] at h
      simp only [Option.toList_some, List.mem_singleton] at h
      rw [rgxEnds, dropLit_append _ t s ext rem2 hd]
      simp only [Option.toList_some, List.mem_singleton]
      rw [h]
  | litCI t =>
    intro s ext rem h
    rw [rgxEnds] at h
    cases hd : dropLit ciEq t s with
    | none => rw [hd] at h; simp at h
    | some rem2 =>
      rw [hd] at h
      simp only [Option.toList_some, List.mem_singleton] at h
      rw [rgxEnds, dropLit_append _ t s ext rem2 hd]
      simp only [Option.toList_some, List.mem_singleton]
      rw [h]
  | cat a b iha ihb =>
    rw [Rgx.noEol, Bool.and_eq_true] at hne
    intro s ext rem h
    rw [rgxEnds, List.mem_flatMap] at h ⊢
    obtain ⟨mid, hmid, hrem⟩ := h
    exact ⟨mid ++ ext, iha hne.1 s ext mid hmid, ihb hne.2 mid ext rem hrem⟩
  | alt a b iha ihb =>
    rw [Rgx.noEol, Bool.and_eq_true] at hne
    intro s ext rem h
    rw [rgxEnds, List.mem_append] at h ⊢
    rcases h with h | h
    · exact Or.inl (iha hne.1 s ext rem h)
    · exact Or.inr (ihb hne.2 s ext rem h)
  | opt r ih =>
    rw [Rgx.noEol] at hne
    intro s ext rem h
    rw [rgxEnds, List.mem_append] at h ⊢
    rcases h with h | h
    · exact Or.inl (ih hne s ext rem h)
    · simp only [List.mem_singleton] at h
      subst h
      exact Or.inr (List.mem_singleton.mpr rfl)
  | rep lo hi p =>
    intro s ext rem h
    rw [rgxEnds, repEnds_mem_iff] at h
    obtain ⟨n, h1, h2, h3⟩ := h
    have hnle : n ≤ s.length := by
      have hm := maxRun_le p s
      cases hi with
      | none => simp only at h2; omega
      | some hh => simp only [Nat.le_min] at h2; omega
    show rem ++ ext ∈ repEnds lo hi p (s ++ ext)
    rw [repEnds_mem_iff]
    refine ⟨n, h1, ?_, ?_⟩
    · have hmm := maxRun_le_append p s ext
      cases hi with
      | none => simp only at h2 ⊢; omega
      | some hh => simp only [Nat.le_min] at h2 ⊢; omega
    · rw [h3, List.drop_append_of_le_length hnle]
  | eol => cases hne

/-- Appending `p`-characters (none of them newlines are needed: the final
`$` is satisfied at the very end) preserves a `re.match` of a noise-shaped
pattern on a newline-free line. -/
theorem noise_absorb_right (body : Rgx) (p : Char → Bool) (u sfx : Str)
    (hbody : body.noEol = true) (hu : '\n' ∉ u)
    (hs : ∀ c ∈ sfx, p c = true)
    (h : matchesAt0 (mkNoise body p) u = true) :
    matchesAt0 (mkNoise body p) (u ++ sfx) = true := by
  unfold matchesAt0 mkNoise at h ⊢
  rw [Bool.not_eq_true'] at h ⊢
  have hne2 : rgxEnds (.cat body (.cat (.rep 0 none p) .eol)) u ≠ [] := by
    intro hl
    rw [hl] at h
    simp at h
  obtain ⟨rem, hrem⟩ := List.exists_mem_of_ne_nil _ hne2
  rw [rgxEnds, List.mem_flatMap] at hrem
  obtain ⟨m1, hm1, hrem2⟩ := hrem
  rw [rgxEnds, List.mem_flatMap] at hrem2
  obtain ⟨m2, hm2, hrem3⟩ := hrem2
  have hm2su : m2 <:+ u :=
    (rgxEnds_suffix (.rep 0 none p) m1 m2 hm2).trans (rgxEnds_suffix body u m1 hm1)
  have hm2nil : m2 = [] := by
    cases hm2c : m2 with
    | nil => rfl
    | cons c cs =>
      exfalso
      rw [hm2c] at hrem3 hm2su
      have hcu : c ∈ u := hm2su.subset (List.mem_cons_self c cs)
      rw [rgxEnds] at hrem3
      by_cases hc : c = '\n'
      · exact hu (hc ▸ hcu)
      · rw [if_neg hc] at hrem3
        simp at hrem3
  rw [hm2nil] at hm2
  rw [rgxEnds] at hm2
  have hall : ∀ c ∈ m1, p c = true := by
    rw [repEnds_mem_iff] at hm2
    obtain ⟨n, -, hn2, hdrop⟩ := hm2
    have hn2m : n ≤ maxRun p m1 := hn2
    have hlen : m1.length ≤ n := by
      rw [eq_comm, List.drop_eq_nil_iff] at hdrop
      exact hdrop
    have hml := maxRun_le p m1
    exact all_of_maxRun_eq_length p m1 (by omega)
  have hm1e : m1 ++ sfx ∈ rgxEnds body (u ++ sfx) := rgxEnds_extend body hbody u sfx m1 hm1
  have hallx : ∀ c ∈ m1 ++ sfx, p c = true := by
    intro c hc
    rcases List.mem_append.mp hc with hc | hc
    · exact hall c hc
    · exact hs c hc
  have hmem : ([] : Str) ∈ rgxEnds (.cat body (.cat (.rep 0 none p) .eol)) (u ++ sfx) := by
    rw [rgxEnds, List.mem_flatMap]
    refine ⟨m1 ++ sfx, hm1e, ?_⟩
    rw [rgxEnds, List.mem_flatMap]
    refine ⟨[], ?_, ?_⟩
    · rw [rgxEnds]
      exact repEnds_full p _ hallx
    · simp [rgxEnds]
  cases hll : rgxEnds (.cat body (.cat (.rep 0 none p) .eol)) (u ++ sfx) with
  | nil => rw [hll] at hmem; cases hmem
  | cons x xs => rfl

/-- Every noise pattern is `mkNoise body p` with an anchor-free body and a
tail class accepting all non-newline whitespace. -/
theorem noisePatterns_shape (pat : Rgx) (hmem : pat ∈ noisePatterns) :
    ∃ body p, pat = mkNoise body p ∧ body.noEol = true ∧
      ∀ c, pyWs c = true → c ≠ '\n' → p c = true := by
  simp only [noisePatterns, List.mem_cons, List.not_mem_nil, or_false] at hmem
  rcases hmem with rfl|rfl|rfl|rfl|rfl|rfl|rfl|rfl|rfl|rfl|rfl|rfl|rfl|rfl|rfl|rfl|rfl
  all_goals first
    | exact ⟨_, _, rfl, by decide, fun c h1 h2 => by simp [notNL, h2]⟩
    | exact ⟨_, _, rfl, by decide, fun c h1 _ => h1⟩

theorem isNoiseLine_of_trimRight (l : Str) (hnl : '\n' ∉ l)
    (h : isNoiseLine (trimRightWs l) = true) : isNoiseLine l = true := by
  unfold isNoiseLine at h ⊢
  rw [List.any_eq_true] at h ⊢
  obtain ⟨pat, hpmem, hmat⟩ := h
  refine ⟨pat, hpmem, ?_⟩
  obtain ⟨body, p, rfl, hbody, hp⟩ := noisePatterns_shape pat hpmem
  obtain ⟨w, hw, hws⟩ := trimRightWs_append_ws l
  have hnl2 : '\n' ∉ trimRightWs l := fun hm => hnl ((trimRightWs_isPre l).subset hm)
  have hsfx : ∀ c ∈ w, p c = true := by
    intro c hc
    have hcl : c ∈ l := by
      rw [hw]
      exact List.mem_append_right _ hc
    exact hp c (hws c hc) (fun hceq => hnl (hceq ▸ hcl))
  have := noise_absorb_right body p (trimRightWs l) w hbody hnl2 hsfx hmat
  rw [← hw] at this
  exact this

/-! ### The newline-collapse scanner -/

theorem noTripleFrom_mono (s : Str) :
    ∀ k k2, k2 ≤ k → noTripleFrom k s = true → noTripleFrom k2 s = true := by
  induction s with
  | nil => intro k k2 _ _; rfl
  | cons c r ih =>
    intro k k2 hle h
    rw [noTripleFrom] at h ⊢
    by_cases hc : c = '\n'
    · rw [if_pos hc] at h ⊢
      rw [Bool.and_eq_true] at h ⊢
      obtain ⟨h1, h2⟩ := h
      rw [decide_eq_true_iff] at h1
      refine ⟨by rw [decide_eq_true_iff]; omega, ih (k + 1) (k2 + 1) (by omega) h2⟩
    · rw [if_neg hc] at h ⊢
      exact h

theorem collapseGo_fix (s : Str) : ∀ k, noTripleFrom k s = true → collapseGo k s = s := by
  induction s with
  | nil => intro k _; rfl
  | cons c r ih =>
    intro k h
    rw [noTripleFrom] at h
    rw [collapseGo]
    by_cases hc : c = '\n'
    · subst hc
      rw [if_pos rfl] at h ⊢
      rw [Bool.and_eq_true, decide_eq_true_iff] at h
      rw [if_neg (by omega : ¬ 2 ≤ k), ih (k + 1) h.2]
    · rw [if_neg hc] at h ⊢
      rw [ih 0 h]

theorem noTripleFrom_collapseGo (s : Str) : ∀ k, noTripleFrom k (collapseGo k s) = true := by
  induction s with
  | nil => intro k; rfl
  | cons c r ih =>
    intro k
    rw [collapseGo]
    by_cases hc : c = '\n'
    · subst hc
      rw [if_pos rfl]
      by_cases hk : 2 ≤ k
      · rw [if_pos hk]
        exact ih k
      · rw [if_neg hk]
        rw [noTripleFrom, if_pos rfl, Bool.and_eq_true, decide_eq_true_iff]
        exact ⟨by omega, ih (k + 1)⟩
    · rw [if_neg hc, noTripleFrom, if_neg hc]
      exact ih 0

theorem noTripleFrom_suffix (s : Str) :
    ∀ k t, noTripleFrom k s = true → t <:+ s → noTripleFrom 0 t = true := by
  induction s with
  | nil =>
    intro k t _ ht
    rw [List.suffix_nil.mp ht]
    rfl
  | cons c r ih =>
    intro k t h ht
    rcases List.suffix_cons_iff.mp ht with rfl | ht2
    · exact noTripleFrom_mono (c :: r) k 0 (Nat.zero_le k) h
    · rw [noTripleFrom] at h
      by_cases hc : c = '\n'
      · rw [if_pos hc, Bool.and_eq_true] at h
        exact ih (k + 1) t h.2 ht2
      · rw [if_neg hc] at h
        exact ih 0 t h ht2

theorem noTripleFrom_append_left (a b : Str) :
    ∀ k, noTripleFrom k (a ++ b) = true → noTripleFrom k a = true := by
  induction a with
  | nil => intro k _; rfl
  | cons c r ih =>
    intro k h
    rw [List.cons_append, noTripleFrom] at h
    rw [noTripleFrom]
    by_cases hc : c = '\n'
    · rw [if_pos hc] at h ⊢
      rw [Bool.and_eq_true] at h ⊢
      exact ⟨h.1, ih (k + 1) h.2⟩
    · rw [if_neg hc] at h ⊢
      exact ih 0 h

theorem collapseGo_nlFree (s : Str) (hnl : '\n' ∉ s) : ∀ k, collapseGo k s = s := by
  induction s with
  | nil => intro k; rfl
  | cons c r ih =>
    intro k
    have hc : ¬ c = '\n' := fun hceq => hnl (hceq ▸ List.mem_cons_self c r)
    rw [collapseGo, if_neg hc, ih (fun hm => hnl (List.mem_cons_of_mem c hm)) 0]

theorem collapseGo_chunk (l : Str) :
    ∀ w, '\n' ∉ l → l ≠ [] → ∀ k, collapseGo k (l ++ w) = l ++ collapseGo 0 w := by
  induction l with
  | nil => intro w _ hne; exact absurd rfl hne
  | cons c r ih =>
    intro w hnl _ k
    have hc : ¬ c = '\n' := fun hceq => hnl (hceq ▸ List.mem_cons_self c r)
    rw [List.cons_append, collapseGo, if_neg hc]
    by_cases hr : r = []
    · subst hr
      simp
    · rw [ih w (fun hm => hnl (List.mem_cons_of_mem c hm)) hr 0, List.cons_append]

/-! ### Line structure -/

theorem splitNL_ne_nil (s : Str) : splitNL s ≠ [] := by
  cases s with
  | nil => simp [splitNL]
  | cons c r =>
    rw [splitNL]
    by_cases hc : c = '\n'
    · rw [if_pos hc]
      simp
    · rw [if_neg hc]
      simp

theorem joinNL_splitNL (s : Str) : joinNL (splitNL s) = s := by
  induction s with
  | nil => rfl
  | cons c r ih =>
    rw [splitNL]
    by_cases hc : c = '\n'
    · rw [if_pos hc]
      cases hs : splitNL r with
      | nil => exact absurd hs (splitNL_ne_nil r)
      | cons x xs =>
        rw [hs] at ih
        show [] ++ '\n' :: joinNL (x :: xs) = c :: r
        rw [List.nil_append, ih, hc]
    · rw [if_neg hc]
      cases hs : splitNL r with
      | nil => exact absurd hs (splitNL_ne_nil r)
      | cons x xs =>
        rw [hs] at ih
        simp only [List.headD_cons, List.tail_cons]
        cases xs with
        | nil =>
          show c :: x = c :: r
          rw [show joinNL [x] = x from rfl] at ih
          rw [ih]
        | cons y ys =>
          show (c :: x) ++ '\n' :: joinNL (y :: ys) = c :: r
          rw [show joinNL (x :: y :: ys) = x ++ '\n' :: joinNL (y :: ys) from rfl] at ih
          rw [List.cons_append, ih]

theorem splitNL_mem_nlFree (s : Str) : ∀ l ∈ splitNL s, '\n' ∉ l := by
  induction s with
  | nil =>
    intro l hl
    simp only [splitNL, List.mem_singleton] at hl
    subst hl
    simp
  | cons c r ih =>
    intro l hl
    rw [splitNL] at hl
    by_cases hc : c = '\n'
    · rw [if_pos hc] at hl
      rcases List.mem_cons.mp hl with rfl | hl2
      · simp
      · exact ih l hl2
    · rw [if_neg hc] at hl
      rcases List.mem_cons.mp hl with rfl | hl2
      · intro hm
        rcases List.mem_cons.mp hm with heq | hm2
        · exact hc heq.symm
        · cases hs : splitNL r with
          | nil =>
            rw [hs] at hm2
            simp at hm2
          | cons x xs =>
            rw [hs] at hm2
            simp only [List.headD_cons] at hm2
            exact ih x (by rw [hs]; exact List.mem_cons_self x xs) hm2
      · exact ih l (List.mem_of_mem_tail hl2)

theorem splitNL_nlFree (l : Str) (hnl : '\n' ∉ l) : splitNL l = [l] := by
  induction l with
  | nil => rfl
  | cons c r ih =>
    have hc : ¬ c = '\n' := fun hceq => hnl (hceq ▸ List.mem_cons_self c r)
    rw [splitNL, if_neg hc, ih (fun hm => hnl (List.mem_cons_of_mem c hm))]
    rfl

theorem splitNL_chunk (l : Str) (hnl : '\n' ∉ l) (w : Str) :
    splitNL (l ++ '\n' :: w) = l :: splitNL w := by
  induction l with
  | nil =>
    show splitNL ('\n' :: w) = [] :: splitNL w
    rw [splitNL, if_pos rfl]
  | cons c r ih =>
    have hc : ¬ c = '\n' := fun hceq => hnl (hceq ▸ List.mem_cons_self c r)
    rw [List.cons_append, splitNL, if_neg hc,
      ih (fun hm => hnl (List.mem_cons_of_mem c hm))]
    rfl

theorem exists_chunk (s : Str) :
    ('\n' ∉ s) ∨ ∃ l w, s = l ++ '\n' :: w ∧ '\n' ∉ l := by
  induction s with
  | nil =>
    left
    simp
  | cons c r ih =>
    by_cases hc : c = '\n'
    · right
      refine ⟨[], r, ?_, by simp⟩
      rw [hc]
      rfl
    · rcases ih with hnl | ⟨l, w, hw, hlnl⟩
      · left
        intro hm
        rcases List.mem_cons.mp hm with heq | hm2
        · exact hc heq.symm
        · exact hnl hm2
      · right
        refine ⟨c :: l, w, by rw [List.cons_append, hw], ?_⟩
        intro hm
        rcases List.mem_cons.mp hm with heq | hm2
        · exact hc heq.symm
        · exact hlnl hm2

/-- No line of the collapsed rejoin of noise-free newline-free lines is a
noise line (the collapse only merges or drops empty lines; the empty line
is not noise). -/
theorem lines_ok_collapseGo_join :
    ∀ ls : List Str, (∀ l ∈ ls, isNoiseLine l = false) →
      (∀ l ∈ ls, '\n' ∉ l) → ls ≠ [] → ∀ k,
      ∀ l ∈ splitNL (collapseGo k (joinNL ls)), isNoiseLine l = false := by
  intro ls
  induction ls with
  | nil => intro _ _ hne; exact absurd rfl hne
  | cons a ls ih =>
    intro hok hnl _ k
    cases ls with
    | nil =>
      intro l hl
      rw [show joinNL [a] = a from rfl] at hl
      rw [collapseGo_nlFree a (hnl a (List.mem_cons_self a _)) k] at hl
      rw [splitNL_nlFree a (hnl a (List.mem_cons_self a _))] at hl
      simp only [List.mem_singleton] at hl
      subst hl
      exact hok l (List.mem_cons_self l _)
    | cons b ls2 =>
      have hjoin : joinNL (a :: b :: ls2) = a ++ '\n' :: joinNL (b :: ls2) := rfl
      have hokt : ∀ l ∈ b :: ls2, isNoiseLine l = false :=
        fun l hl => hok l (List.mem_cons_of_mem a hl)
      have hnlt : ∀ l ∈ b :: ls2, '\n' ∉ l :=
        fun l hl => hnl l (List.mem_cons_of_mem a hl)
      cases ha : a with
      | nil =>
        rw [show joinNL ([] :: b :: ls2) = '\n' :: joinNL (b :: ls2) from rfl]
        by_cases hk : 2 ≤ k
        · rw [show collapseGo k ('\n' :: joinNL (b :: ls2)) =
              collapseGo k (joinNL (b :: ls2)) from by rw [collapseGo, if_pos rfl, if_pos hk]]
          exact ih hokt hnlt (by simp) k
        · rw [show collapseGo k ('\n' :: joinNL (b :: ls2)) =
              '\n' :: collapseGo (k + 1) (joinNL (b :: ls2)) from by
                rw [collapseGo, if_pos rfl, if_neg hk]]
          intro l hl
          rw [splitNL, if_pos rfl] at hl
          rcases List.mem_cons.mp hl with rfl | hl2
          · decide
          · exact ih hokt hnlt (by simp) (k + 1) l hl2
      | cons c r =>
        rw [show joinNL ((c :: r) :: b :: ls2) = (c :: r) ++ '\n' :: joinNL (b :: ls2) from rfl]
        have hanl : '\n' ∉ c :: r := ha ▸ hnl a (List.mem_cons_self a _)
        rw [collapseGo_chunk (c :: r) ('\n' :: joinNL (b :: ls2)) hanl (by simp) k]
        rw [show collapseGo 0 ('\n' :: joinNL (b :: ls2)) =
            '\n' :: collapseGo 1 (joinNL (b :: ls2)) from by
              rw [collapseGo, if_pos rfl, if_neg (by omega)]]
        rw [splitNL_chunk (c :: r) hanl _]
        intro l hl
        rcases List.mem_cons.mp hl with rfl | hl2
        · exact ha ▸ hok a (List.mem_cons_self a _)
        · exact ih hokt hnlt (by simp) 1 l hl2

/-! ### Trimming and lines -/

theorem trimRightWs_append (a b : Str) :
    trimRightWs (a ++ b) =
      if trimRightWs b = [] then trimRightWs a else a ++ trimRightWs b := by
  unfold trimRightWs
  rw [List.reverse_append, List.dropWhile_append]
  by_cases hb : (b.reverse.dropWhile pyWs).isEmpty
  · rw [if_pos hb]
    have hb2 : (b.reverse.dropWhile pyWs).reverse = [] := by
      rw [List.isEmpty_iff] at hb
      rw [hb]
      rfl
    rw [if_pos hb2]
  · rw [if_neg hb]
    have hb2 : ¬ (b.reverse.dropWhile pyWs).reverse = [] := by
      intro hbr
      rw [List.reverse_eq_nil_iff] at hbr
      rw [List.isEmpty_iff] at hb
      exact hb hbr
    rw [if_neg hb2, List.reverse_append, List.reverse_reverse]

theorem lines_ok_trimRight : ∀ n, ∀ s : Str, s.length ≤ n →
    (∀ l ∈ splitNL s, isNoiseLine l = false) →
    ∀ l ∈ splitNL (trimRightWs s), isNoiseLine l = false := by
  intro n
  induction n with
  | zero =>
    intro s hs hok
    have hz : s = [] := List.length_eq_zero.mp (Nat.le_zero.mp hs)
    subst hz
    exact hok
  | succ n ih =>
    intro s hs hok
    rcases exists_chunk s with hnl | ⟨l, w, rfl, hlnl⟩
    · intro l2 hl2
      have hnl2 : '\n' ∉ trimRightWs s := fun hm => hnl ((trimRightWs_isPre s).subset hm)
      rw [splitNL_nlFree _ hnl2] at hl2
      simp only [List.mem_singleton] at hl2
      subst hl2
      have hsok : isNoiseLine s = false := by
        have hstep := hok s
        rw [splitNL_nlFree s hnl] at hstep
        exact hstep (List.mem_singleton.mpr rfl)
      cases hno : isNoiseLine (trimRightWs s)
      · rfl
      · exact absurd (isNoiseLine_of_trimRight s hnl hno) (by rw [hsok]; simp)
    · rw [trimRightWs_append l ('\n' :: w)]
      have hlok : isNoiseLine l = false := by
        apply hok
        rw [splitNL_chunk l hlnl w]
        exact List.mem_cons_self l _
      have hokw : ∀ x ∈ splitNL w, isNoiseLine x = false := by
        intro x hx
        apply hok
        rw [splitNL_chunk l hlnl w]
        exact List.mem_cons_of_mem l hx
      by_cases hb : trimRightWs ('\n' :: w) = []
      · rw [if_pos hb]
        intro l2 hl2
        have hnl2 : '\n' ∉ trimRightWs l := fun hm => hlnl ((trimRightWs_isPre l).subset hm)
        rw [splitNL_nlFree _ hnl2] at hl2
        simp only [List.mem_singleton] at hl2
        subst hl2
        cases hno : isNoiseLine (trimRightWs l)
        · rfl
        · exact absurd (isNoiseLine_of_trimRight l hlnl hno) (by rw [hlok]; simp)
      · rw [if_neg hb]
        have hw : trimRightWs w ≠ [] := by
          intro hww
          apply hb
          rw [show ('\n' :: w) = ['\n'] ++ w from rfl, trimRightWs_append, if_pos hww]
          rfl
        have htr : trimRightWs ('\n' :: w) = '\n' :: trimRightWs w := by
          rw [show ('\n' :: w) = ['\n'] ++ w from rfl, trimRightWs_append, if_neg hw]
          rfl
        rw [htr, splitNL_chunk l hlnl _]
        intro l2 hl2
        rcases List.mem_cons.mp hl2 with rfl | hl2m
        · exact hlok
        · have hwlen : w.length ≤ n := by
            rw [List.length_append, List.length_cons] at hs
            omega
          exact ih w hwlen hokw l2 hl2m

theorem tail_lines_ok_trimLeft (s : Str)
    (hok : ∀ l ∈ (splitNL s).tail, isNoiseLine l = false) :
    ∀ l ∈ (splitNL (trimLeftWs s)).tail, isNoiseLine l = false := by
  induction s with
  | nil => exact hok
  | cons c r ih =>
    by_cases hc : pyWs c
    · have heq : trimLeftWs (c :: r) = trimLeftWs r := by
        unfold trimLeftWs
        rw [List.dropWhile_cons, if_pos hc]
      rw [heq]
      apply ih
      by_cases hcn : c = '\n'
      · intro l hl
        apply hok
        rw [splitNL, if_pos hcn]
        simp only [List.tail_cons]
        exact List.mem_of_mem_tail hl
      · intro l hl
        apply hok
        rw [splitNL, if_neg hcn]
        simp only [List.tail_cons]
        exact hl
    · have heq : trimLeftWs (c :: r) = c :: r := by
        unfold trimLeftWs
        rw [List.dropWhile_cons, if_neg hc]
      rw [heq]
      exact hok

theorem tail_lines_ok_trimRight (s : Str)
    (hok : ∀ l ∈ (splitNL s).tail, isNoiseLine l = false) :
    ∀ l ∈ (splitNL (trimRightWs s)).tail, isNoiseLine l = false := by
  rcases exists_chunk s with hnl | ⟨l, w, rfl, hlnl⟩
  · intro l2 hl2
    have hnl2 : '\n' ∉ trimRightWs s := fun hm => hnl ((trimRightWs_isPre s).subset hm)
    rw [splitNL_nlFree _ hnl2] at hl2
    simp at hl2
  · rw [trimRightWs_append l ('\n' :: w)]
    by_cases hb : trimRightWs ('\n' :: w) = []
    · rw [if_pos hb]
      intro l2 hl2
      have hnl2 : '\n' ∉ trimRightWs l := fun hm => hlnl ((trimRightWs_isPre l).subset hm)
      rw [splitNL_nlFree _ hnl2] at hl2
      simp at hl2
    · rw [if_neg hb]
      have hw : trimRightWs w ≠ [] := by
        intro hww
        apply hb
        rw [show ('\n' :: w) = ['\n'] ++ w from rfl, trimRightWs_append, if_pos hww]
        rfl
      have htr : trimRightWs ('\n' :: w) = '\n' :: trimRightWs w := by
        rw [show ('\n' :: w) = ['\n'] ++ w from rfl, trimRightWs_append, if_neg hw]
        rfl
      rw [htr, splitNL_chunk l hlnl _]
      simp only [List.tail_cons]
      have hokw : ∀ x ∈ splitNL w, isNoiseLine x = false := by
        intro x hx
        apply hok
        rw [splitNL_chunk l hlnl w]
        simpa using hx
      exact lines_ok_trimRight w.length w (Nat.le_refl _) hokw

/-- A string whose lines are all noise-free, with no triple newline, and
already stripped, is a fixed point of `clean_content`. -/
theorem cleanContent_fixed (y : Str)
    (hall : ∀ l ∈ splitNL y, isNoiseLine l = false)
    (hnt : noTripleFrom 0 y = true)
    (hstrip : stripWs y = y) : cleanContent y = y := by
  unfold cleanContent
  have hfilter : (splitNL y).filter (fun l => !(isNoiseLine l)) = splitNL y := by
    apply List.filter_eq_self.mpr
    intro l hl
    rw [hall l hl]
    rfl
  rw [hfilter, joinNL_splitNL]
  rw [show collapseNL y = y from collapseGo_fix y 0 hnt]
  exact hstrip

/-! ## Claim C8 -/

/-- C8 counterexample: the Noise Filter is not idempotent.  Stripping the
leading whitespace of " [BY-NC-ND license]" exposes a line matching the
column-0-anchored BY-NC-ND noise pattern, so a second application of
`clean_content` deletes the whole line. -/
theorem c8_counterexample_not_idempotent :
    cleanContent (cleanContent cexC8txt) ≠ cleanContent cexC8txt := by decide

/-- C8 amended: `clean(clean x) = clean x` for every input whose cleaned
form's first line is not itself a noise line (the only way a line can
become noise in the second pass is the leading-whitespace strip exposing
the column-0-anchored BY-NC-ND license pattern on the first line). -/
theorem c8_amended_idempotent_unless_head_noise (x : Str)
    (h : isNoiseLine (headLine (cleanContent x)) = false) :
    cleanContent (cleanContent x) = cleanContent x := by
  cases hfe : (splitNL x).filter (fun l => !(isNoiseLine l)) with
  | nil =>
    have hy : cleanContent x = [] := by
      unfold cleanContent
      rw [hfe]
      rfl
    rw [hy]
    rfl
  | cons a ls2 =>
    have hok : ∀ l ∈ (splitNL x).filter (fun l => !(isNoiseLine l)),
        isNoiseLine l = false := by
      intro l hl
      have hmf := (List.mem_filter.mp hl).2
      rwa [Bool.not_eq_true'] at hmf
    have hnl : ∀ l ∈ (splitNL x).filter (fun l => !(isNoiseLine l)), '\n' ∉ l :=
      fun l hl => splitNL_mem_nlFree x l (List.mem_filter.mp hl).1
    have hne : (splitNL x).filter (fun l => !(isNoiseLine l)) ≠ [] := by
      rw [hfe]
      simp
    have hcolOk : ∀ l ∈ splitNL (collapseGo 0
        (joinNL ((splitNL x).filter (fun l => !(isNoiseLine l))))),
        isNoiseLine l = false :=
      lines_ok_collapseGo_join _ hok hnl hne 0
    have htail1 : ∀ l ∈ (splitNL (trimLeftWs (collapseGo 0
        (joinNL ((splitNL x).filter (fun l => !(isNoiseLine l))))))).tail,
        isNoiseLine l = false :=
      tail_lines_ok_trimLeft _ (fun l hl => hcolOk l (List.mem_of_mem_tail hl))
    have htail2 : ∀ l ∈ (splitNL (trimRightWs (trimLeftWs (collapseGo 0
        (joinNL ((splitNL x).filter (fun l => !(isNoiseLine l)))))))).tail,
        isNoiseLine l = false :=
      tail_lines_ok_trimRight _ htail1
    have hyall : ∀ l ∈ splitNL (cleanContent x), isNoiseLine l = false := by
      have hsplit : splitNL (cleanContent x) =
          headLine (cleanContent x) :: (splitNL (cleanContent x)).tail := by
        cases hsx : splitNL (cleanContent x) with
        | nil => exact absurd hsx (splitNL_ne_nil _)
        | cons u us =>
          rw [headLine, hsx]
          rfl
      intro l hl
      rw [hsplit] at hl
      rcases List.mem_cons.mp hl with rfl | hl2
      · exact h
      · exact htail2 l hl2
    have hnty : noTripleFrom 0 (cleanContent x) = true := by
      have h1 : noTripleFrom 0 (collapseGo 0
          (joinNL ((splitNL x).filter (fun l => !(isNoiseLine l))))) = true :=
        noTripleFrom_collapseGo _ 0
      have h2 : noTripleFrom 0 (trimLeftWs (collapseGo 0
          (joinNL ((splitNL x).filter (fun l => !(isNoiseLine l)))))) = true :=
        noTripleFrom_suffix _ 0 _ h1 (trimLeftWs_isSuf _)
      obtain ⟨w, hw, -⟩ := trimRightWs_append_ws (trimLeftWs (collapseGo 0
        (joinNL ((splitNL x).filter (fun l => !(isNoiseLine l))))))
      apply noTripleFrom_append_left _ w 0
      show noTripleFrom 0 (trimRightWs (trimLeftWs (collapseGo 0
        (joinNL ((splitNL x).filter (fun l => !(isNoiseLine l)))))) ++ w) = true
      rw [← hw]
      exact h2
    have hstripy : stripWs (cleanContent x) = cleanContent x := stripWs_idem _
    exact cleanContent_fixed _ hyall hnty hstripy

theorem c8_amended_idempotent_witness :
    cleanContent (cleanContent witC8txt) = cleanContent witC8txt :=
  c8_amended_idempotent_unless_head_noise witC8txt (by decide)
